import Mathlib

/-!
Verification of the document transformation pipeline of obsidian-markdown-blogger.

The pipeline (src/main.ts and the unnamed source part) has two pure components:

* `processMDFile` (modelled here by `imageStage`, `updFM`, `frontMatterStage`,
  `rewriteStage`): rewrites inline `![alt](images/...)` links, extracts the
  optional front matter, rewrites or appends the `cover_url:` field and
  reassembles the document.
* `wrapWithCustomComponent` (modelled by `splitBlocks`, `headingExec`,
  `opaqueTest`, `wrapLoop`, `wrapResultList`, `joinBlankLine`): splits the
  document into blank-line separated blocks, classifies each block and wraps
  plain runs and headings in component tags.

Strings are modelled as `List Char`.  The JavaScript regular expressions used
by the source are compiled by hand into explicit scanning functions whose
semantics (greedy/lazy repetition, backtracking, multiline anchors, the
`\s` class, the line-terminator set excluded by `.`) follow ECMAScript.
-/

set_option maxRecDepth 20000

namespace MDBlogger

/-- Shorthand: the character list of a string literal. -/
def str (s : String) : List Char := s.toList

/-- The JavaScript regex character class `\s` (whitespace, as used by `\s`,
`String.prototype.trim` and the blank-line splitter). -/
def jsWS (c : Char) : Bool :=
  c = ' ' || c = '\t' || c = '\n' || c = Char.ofNat 11 || c = Char.ofNat 12 ||
  c = '\r' || c = Char.ofNat 0xa0 || c = Char.ofNat 0x1680 ||
  (0x2000 ≤ c.toNat && c.toNat ≤ 0x200a) || c = Char.ofNat 0x2028 ||
  c = Char.ofNat 0x2029 || c = Char.ofNat 0x202f || c = Char.ofNat 0x205f ||
  c = Char.ofNat 0x3000 || c = Char.ofNat 0xfeff

/-- The ECMAScript LineTerminator set: the characters not matched by `.` and
recognised by the multiline anchors `^`/`$`. -/
def isLineTerm (c : Char) : Bool :=
  c = '\n' || c = '\r' || c = Char.ofNat 0x2028 || c = Char.ofNat 0x2029

/-- JavaScript `String.prototype.trim`. -/
def trimJS (l : List Char) : List Char :=
  ((l.dropWhile jsWS).reverse.dropWhile jsWS).reverse

/-- The non-whitespace content of a string (used to state the completeness
invariant of the spec). -/
def nonWS (l : List Char) : List Char := l.filter (fun c => !jsWS c)

/-- `.*` starting at the current position: the longest run of
non-line-terminator characters. -/
def takeNoLT (l : List Char) : List Char := l.takeWhile (fun c => !isLineTerm c)

/-! ## Blank-line splitting: `content.split(/\n\s*\n/)` -/

/-- Index of the last `'\n'` in a list, if any. -/
def lastNL : List Char → Option Nat
  | [] => none
  | c :: rest =>
    match lastNL rest with
    | some k => some (k + 1)
    | none => if c = '\n' then some 0 else none

/-- Try to match the separator regex `\n\s*\n` at the head of the list
(greedy `\s*`, backtracking to end on a `'\n'`); returns the remainder after
the match. -/
def sepRem : List Char → Option (List Char)
  | [] => none
  | c :: rest =>
    if c = '\n' then
      match lastNL (rest.takeWhile jsWS) with
      | some k => some (rest.drop (k + 1))
      | none => none
    else none

/-- Fuelled worker for `String.prototype.split` with the separator regex
`\n\s*\n`.  The fuel is only a termination device: one unit is spent per
character position, and every separator match consumes at least two
characters, so `l.length < fuel` keeps the fuel from running out. -/
def splitAuxF : Nat → List Char → List Char → List (List Char)
  | 0, l, acc => [acc.reverse ++ l]
  | _ + 1, [], acc => [acc.reverse]
  | fuel + 1, c :: rest, acc =>
    match sepRem (c :: rest) with
    | some rem => acc.reverse :: splitAuxF fuel rem []
    | none => splitAuxF fuel rest (c :: acc)

/-- `content.split(/\n\s*\n/)` from `wrapWithCustomComponent`. -/
def splitBlocks (content : List Char) : List (List Char) :=
  splitAuxF (content.length + 1) content []

/-! ## The heading regex `/^(#{1,2})\s+(.*)$/m` -/

/-- Attempt the heading pattern at the current position (which must be a
line start): one or two `#` (two preferred), then `\s+` (greedy, may cross
line breaks), then the `.*` capture.  Returns the two capture groups. -/
def headingAt (l : List Char) : Option (List Char × List Char) :=
  match l with
  | [] => none
  | c1 :: rest1 =>
    if c1 = '#' then
      match rest1 with
      | [] => none
      | c2 :: rest2 =>
        if c2 = '#' then
          match rest2 with
          | [] => none
          | c3 :: _ =>
            if jsWS c3 then some (['#', '#'], takeNoLT (rest2.dropWhile jsWS))
            else none
        else if jsWS c2 then some (['#'], takeNoLT (rest1.dropWhile jsWS))
        else none
    else none

/-- Scan for the heading pattern at every line start after a line
terminator. -/
def headingScanAfter : List Char → Option (List Char × List Char)
  | [] => none
  | c :: rest =>
    if isLineTerm c then
      match headingAt rest with
      | some r => some r
      | none => headingScanAfter rest
    else headingScanAfter rest

/-- `headingRegex.exec(trimmedBlock)`: first match of
`/^(#{1,2})\s+(.*)$/m`. -/
def headingExec (l : List Char) : Option (List Char × List Char) :=
  match headingAt l with
  | some r => some r
  | none => headingScanAfter l

/-! ## The opaque-block tests -/

/-- A `---` sequence whose end is followed by a line terminator or the end of
the string (the closing part of `/^---[\s\S]*?---$/m`). -/
def closeAt (l : List Char) : Bool :=
  (str "---").isPrefixOf l &&
    (match l.drop 3 with
     | [] => true
     | t :: _ => isLineTerm t)

/-- Does `---` followed by a line end occur anywhere in the list? -/
def hasClose : List Char → Bool
  | [] => false
  | c :: rest => closeAt (c :: rest) || hasClose rest

/-- The front-matter pattern `---[\s\S]*?---$` anchored at a line start. -/
def fmAtLS (l : List Char) : Bool :=
  (str "---").isPrefixOf l && hasClose (l.drop 3)

/-- Multiline `test`: try a line-start-anchored pattern at position 0 and
after every line terminator. -/
def scanLS (p : List Char → Bool) : List Char → Bool
  | [] => false
  | c :: rest => (isLineTerm c && p rest) || scanLS p rest

/-- Multiline `test` of a line-start-anchored pattern. -/
def testM (p : List Char → Bool) (l : List Char) : Bool := p l || scanLS p l

/-- `frontMatterRegex.test(trimmedBlock)` for `/^---[\s\S]*?---$/m`. -/
def fmTest (l : List Char) : Bool := testM fmAtLS l

/-- Does the list contain `](` with at least one character after it? -/
def hasBrkParen : List Char → Bool
  | b1 :: b2 :: c :: rest => (b1 = ']' && b2 = '(') || hasBrkParen (b2 :: c :: rest)
  | _ => false

/-- The image pattern `!\[.*?\]\(.*?\)$` anchored at a line start: the rest
of the line after `![` must contain `](` and end in `)`. -/
def imgAtLS (l : List Char) : Bool :=
  match l with
  | c1 :: c2 :: rest =>
    if c1 = '!' && c2 = '[' then
      let L := takeNoLT rest
      hasBrkParen L && L.getLast? = some ')'
    else false
  | _ => false

/-- `imageRegex.test(trimmedBlock)` for `/^!\[.*?\]\(.*?\)$/m`. -/
def imageTest (l : List Char) : Bool := testM imgAtLS l

/-- The class `[a-zA-Z0-9-]` of the component regex. -/
def isAlnumDash (c : Char) : Bool :=
  ('a' ≤ c && c ≤ 'z') || ('A' ≤ c && c ≤ 'Z') || ('0' ≤ c && c ≤ '9') || c = '-'

/-- `componentRegex.test(trimmedBlock)` for `/<([a-zA-Z0-9-]+)([^>]*?)(\/?)>/`:
somewhere a `<` followed by an alphanumeric-or-dash character with a later
`>`. -/
def compSearch : List Char → Bool
  | c1 :: c2 :: rest =>
    (c1 = '<' && isAlnumDash c2 && rest.contains '>') || compSearch (c2 :: rest)
  | _ => false

/-- The combined test deciding that a block is left untouched (front matter,
standalone image line, or custom component). -/
def opaqueTest (tb : List Char) : Bool := fmTest tb || imageTest tb || compSearch tb

/-! ## The wrapping loop of `wrapWithCustomComponent` -/

/-- `<${wrapper}>\n${inner}\n</${wrapper}>`. -/
def wrapUnit (w inner : List Char) : List Char :=
  '<' :: w ++ '>' :: '\n' :: inner ++ '\n' :: '<' :: '/' :: w ++ ['>']

/-- `<${headingWrapper}>\n${hashes} ${headingContent}\n</${headingWrapper}>`. -/
def headingUnit (hw hashes hcontent : List Char) : List Char :=
  '<' :: hw ++ '>' :: '\n' :: hashes ++ ' ' :: hcontent ++ '\n' :: '<' :: '/' :: hw ++ ['>']

/-- Flush the pending plain run, if non-empty. -/
def flushIf (w cur : List Char) : List (List Char) :=
  if cur = [] then [] else [wrapUnit w (trimJS cur)]

/-- The block loop of `wrapWithCustomComponent`: `cur` is the accumulated
`currentBlock`; the returned list is the `result` array. -/
def wrapLoop (w hw : List Char) : List (List Char) → List Char → List (List Char)
  | [], cur => flushIf w cur
  | b :: bs, cur =>
    let tb := trimJS b
    match headingExec tb with
    | some (hs, hc) => flushIf w cur ++ headingUnit hw hs hc :: wrapLoop w hw bs []
    | none =>
      if opaqueTest tb then flushIf w cur ++ tb :: wrapLoop w hw bs []
      else wrapLoop w hw bs (if cur = [] then tb else cur ++ '\n' :: '\n' :: tb)

/-- The `result` array produced by `wrapWithCustomComponent` before the final
join. -/
def wrapResultList (content w hw : List Char) : List (List Char) :=
  wrapLoop w hw (splitBlocks content) []

/-- `result.join("\n\n")`. -/
def joinBlankLine : List (List Char) → List Char
  | [] => []
  | [u] => u
  | u :: v :: rest => u ++ '\n' :: '\n' :: joinBlankLine (v :: rest)

/-- `wrapWithCustomComponent(content, wrapper, headingWrapper)` with the
source's default tag names. -/
def wrapWithCustomComponent (content : List Char)
    (w : List Char := str "ContentWrapper")
    (hw : List Char := str "HeadingWrapper") : List Char :=
  joinBlankLine (wrapResultList content w hw)

/-! ## The inline image rewrite of `processMDFile`

`content.replace(/!\[[^\]]*\]\((images\/[^\)]+)\)/g, (match, p1) =>
   match.replace(p1, customURLPrefix + p1))`. -/

/-- First index at which `pat` occurs as a sublist (JavaScript
`String.prototype.indexOf`, used by string-pattern `replace`). -/
def findSub (pat : List Char) : List Char → Option Nat
  | [] => if pat.isPrefixOf [] then some 0 else none
  | c :: rest =>
    if pat.isPrefixOf (c :: rest) then some 0
    else (findSub pat rest).map (· + 1)

/-- ECMAScript GetSubstitution for a string search pattern: expand `$$`,
`$&` (the match), a dollar-backquote (the part before the match) and
`$'` (the part after); everything else is literal. -/
def substDollars : List Char → List Char → List Char → List Char → List Char
  | [], _, _, _ => []
  | [c], _, _, _ => [c]
  | c :: d :: rest2, m, b, a =>
    if c = '$' then
      if d = '$' then '$' :: substDollars rest2 m b a
      else if d = '&' then m ++ substDollars rest2 m b a
      else if d = Char.ofNat 96 then b ++ substDollars rest2 m b a
      else if d = Char.ofNat 39 then a ++ substDollars rest2 m b a
      else '$' :: substDollars (d :: rest2) m b a
    else c :: substDollars (d :: rest2) m b a

/-- JavaScript `s.replace(pat, repl)` with a plain-string pattern: the first
occurrence of `pat` is replaced by `repl` after `$`-substitution. -/
def jsReplaceStr (s pat repl : List Char) : List Char :=
  match findSub pat s with
  | none => s
  | some i =>
    s.take i ++ substDollars repl pat (s.take i) (s.drop (i + pat.length)) ++
      s.drop (i + pat.length)

/-- `"images/"`. -/
def imagesLit : List Char := str "images/"

/-- Attempt `!\[[^\]]*\]\((images\/[^\)]+)\)` at the current position.
Returns the whole match text, the capture `p1` and the remainder of the
input after the match. -/
def imgMatch? (l : List Char) : Option (List Char × List Char × List Char) :=
  match l with
  | c1 :: c2 :: rest =>
    if c1 = '!' && c2 = '[' then
      match rest.drop (rest.takeWhile (fun c => c ≠ ']')).length with
      | b1 :: b2 :: tail =>
        if b1 = ']' && b2 = '(' then
          if imagesLit.isPrefixOf tail then
            if (tail.drop 7).takeWhile (fun c => c ≠ ')') = [] then none
            else
              match (tail.drop 7).drop ((tail.drop 7).takeWhile (fun c => c ≠ ')')).length with
              | p :: rem =>
                if p = ')' then
                  some ('!' :: '[' :: rest.takeWhile (fun c => c ≠ ']') ++ ']' :: '(' ::
                      imagesLit ++ (tail.drop 7).takeWhile (fun c => c ≠ ')') ++ [')'],
                    imagesLit ++ (tail.drop 7).takeWhile (fun c => c ≠ ')'), rem)
                else none
              | [] => none
          else none
        else none
      | _ => none
    else none
  | _ => none

/-- Fuelled scan of the global image replace: at every position try the
image regex; on a match, emit the callback result
`match.replace(p1, pre + p1)` and continue after the match. -/
def imgGoF (pre : List Char) : Nat → List Char → List Char
  | 0, l => l
  | _ + 1, [] => []
  | fuel + 1, c :: rest =>
    match imgMatch? (c :: rest) with
    | some (m, p1, rem) => jsReplaceStr m p1 (pre ++ p1) ++ imgGoF pre fuel rem
    | none => c :: imgGoF pre fuel rest

/-- The inline image rewriting stage of `processMDFile`. -/
def imageStage (pre content : List Char) : List Char :=
  imgGoF pre (content.length + 1) content

/-! ## Front-matter extraction and the `cover_url` rewrite -/

/-- Earliest index at which `"\n---"` starts. -/
def findNLdashes : List Char → Option Nat
  | [] => none
  | c :: rest =>
    if (str "\n---").isPrefixOf (c :: rest) then some 0
    else (findNLdashes rest).map (· + 1)

/-- `content.match` with the pattern `^---\n([\s\S]*?)\n---`: the captured
front matter and the length of the whole match.  The lazy middle makes the
closing fence the earliest `"\n---"` at index ≥ 4. -/
def fmExtract (content : List Char) : Option (List Char × Nat) :=
  if (str "---\n").isPrefixOf content then
    match findNLdashes (content.drop 4) with
    | some j => some ((content.drop 4).take j, j + 8)
    | none => none
  else none

/-- `"cover_url:"`. -/
def coverKey : List Char := str "cover_url:"

/-- `frontMatter.match(/cover_url:\s*(.*)/)`: the capture group of the first
match (greedy `\s*` may cross line breaks; `.*` stops at a line
terminator). -/
def findCoverCap : List Char → Option (List Char)
  | [] => none
  | c :: rest =>
    if coverKey.isPrefixOf (c :: rest) then
      some (takeNoLT (((c :: rest).drop 10).dropWhile jsWS))
    else findCoverCap rest

/-- Index of the first `'"'` reachable without crossing a line terminator
(the lazy `.*?` of the quoted-replacement regex). -/
def findQuote : List Char → Option Nat
  | [] => none
  | c :: rest =>
    if c = '"' then some 0
    else if isLineTerm c then none
    else (findQuote rest).map (· + 1)

/-- Length of a match of `/cover_url:\s*".*?"/` at the current position,
if any: the key, greedy whitespace, an opening quote and the closest
closing quote on the same line. -/
def quotedMatchLen (l : List Char) : Option Nat :=
  if coverKey.isPrefixOf l then
    match (l.drop 10).dropWhile jsWS with
    | [] => none
    | c :: tail =>
      if c = '"' then
        match findQuote tail with
        | some j => some (10 + ((l.drop 10).takeWhile jsWS).length + 1 + j + 1)
        | none => none
      else none
  else none

/-- Position and length of the first match of `/cover_url:\s*".*?"/`. -/
def findQuotedMatch : List Char → Option (Nat × Nat)
  | [] => none
  | c :: rest =>
    match quotedMatchLen (c :: rest) with
    | some n => some (0, n)
    | none => (findQuotedMatch rest).map (fun p => (p.1 + 1, p.2))

/-- `frontMatter.replace(/cover_url:\s*".*?"/, repl)` with a string
replacement (so `$`-substitution applies). -/
def jsReplaceQuoted (fm repl : List Char) : List Char :=
  match findQuotedMatch fm with
  | none => fm
  | some (i, n) =>
    fm.take i ++ substDollars repl ((fm.drop i).take n) (fm.take i) (fm.drop (i + n)) ++
      fm.drop (i + n)

/-! ## `path.join` (Node, posix) and the wiki-bracket strip -/

/-- `l.take (l.length - n)`. -/
def dropLastN (n : Nat) (l : List Char) : List Char := l.take (l.length - n)

/-- `coverUrl.replace(/^"\[\[|\]\]"$/g, "")`: remove a leading `"[[` and a
trailing `]]"` (the trailing match must not overlap a removed leading
one). -/
def stripWiki (l : List Char) : List Char :=
  if (str "\"[[").isPrefixOf l then
    let rest := l.drop 3
    if 3 ≤ rest.length && (str "]]\"").isSuffixOf rest then dropLastN 3 rest else rest
  else if (str "]]\"").isSuffixOf l then dropLastN 3 l
  else l

/-- Split on `'/'`. -/
def splitSlashAux : List Char → List Char → List (List Char)
  | [], acc => [acc.reverse]
  | c :: rest, acc =>
    if c = '/' then acc.reverse :: splitSlashAux rest []
    else splitSlashAux rest (c :: acc)

/-- Node's `normalizeString` segment walk: drop empty and `.` segments and
resolve `..` (kept above the root only for relative paths). -/
def normSegs : List (List Char) → List (List Char) → Bool → List (List Char)
  | [], stack, _ => stack.reverse
  | s :: rest, stack, isAbs =>
    if s = [] || s = ['.'] then normSegs rest stack isAbs
    else if s = ['.', '.'] then
      match stack with
      | t :: stack2 =>
        if t = ['.', '.'] then normSegs rest (s :: t :: stack2) isAbs
        else normSegs rest stack2 isAbs
      | [] => if isAbs then normSegs rest [] isAbs else normSegs rest [s] isAbs
    else normSegs rest (s :: stack) isAbs

/-- Join segments with `'/'`. -/
def joinSlash : List (List Char) → List Char
  | [] => []
  | [s] => s
  | s :: t :: rest => s ++ '/' :: joinSlash (t :: rest)

/-- Node `path.normalize` for posix paths. -/
def pathNorm (p : List Char) : List Char :=
  let isAbs := p.head? = some '/'
  let trail := p.getLast? = some '/'
  let core := joinSlash (normSegs (splitSlashAux p []) [] isAbs)
  let core2 := if isAbs then '/' :: core else core
  let core3 := if core2 = [] then ['.'] else core2
  if trail && core3.getLast? ≠ some '/' then core3 ++ ['/'] else core3

/-- Node `path.join(a, b)` for posix paths. -/
def pathJoin2 (a b : List Char) : List Char :=
  let joined := if a = [] then b else if b = [] then a else a ++ '/' :: b
  if joined = [] then ['.'] else pathNorm joined

/-! ## The front-matter rewrite stage of `processMDFile` -/

/-- The replacement string `` `cover_url: ${coverUrl}` ``. -/
def coverRepl (coverUrl : List Char) : List Char := str "cover_url: " ++ coverUrl

/-- The `updatedFrontMatter` computation of `processMDFile`: detect a
`cover_url` value; unless it starts with `http` or `/`, strip wiki brackets
and join it onto the URL prefix; then substitute it for the first quoted
`cover_url: "..."` occurrence.  Without any `cover_url:`, append an empty
field. -/
def updFM (pre fm : List Char) : List Char :=
  match findCoverCap fm with
  | some cap =>
    let cu := trimJS cap
    let cu2 :=
      if (str "http").isPrefixOf cu || (str "/").isPrefixOf cu then cu
      else pathJoin2 pre (stripWiki cu)
    jsReplaceQuoted fm (coverRepl cu2)
  | none => fm ++ str "\ncover_url: "

/-- The front-matter rewrite of `processMDFile`: split off the front matter
(absent or unterminated fences degrade to an empty front matter with the
whole text as body), update it, and reassemble
`` `---\n${updatedFrontMatter}\n---\n${body}` ``. -/
def frontMatterStage (pre content : List Char) : List Char :=
  match fmExtract content with
  | some (fm, n) => str "---\n" ++ updFM pre fm ++ str "\n---\n" ++ content.drop n
  | none => str "---\n" ++ updFM pre [] ++ str "\n---\n" ++ content

/-- The whole rewrite stage of `processMDFile` before wrapping: inline image
rewrite, then the front-matter rewrite. -/
def rewriteStage (pre content : List Char) : List Char :=
  frontMatterStage pre (imageStage pre content)

/-- The full per-document pipeline of `processMDFile`: rewrite, then wrap
with the default component tags. -/
def processContent (pre content : List Char) : List Char :=
  wrapWithCustomComponent (rewriteStage pre content)

/-! ## Claim-side definitions

These follow the wording of the specification's properties (stripping the
wrapper lines of an emitted unit, substring search, hypotheses of the
amended claims); they are not part of the source model. -/

/-- The opening wrapper line `<w>` with its newline. -/
def tagOpen (w : List Char) : List Char := '<' :: w ++ ['>', '\n']

/-- The closing wrapper line `</w>` with its preceding newline. -/
def tagClose (w : List Char) : List Char := '\n' :: '<' :: '/' :: w ++ ['>']

/-- Strip the `w` wrapper lines from an output unit, when present. -/
def stripTag (w u : List Char) : Option (List Char) :=
  if (tagOpen w).isPrefixOf u && (tagClose w).isSuffixOf (u.drop (tagOpen w).length) then
    some (dropLastN (tagClose w).length (u.drop (tagOpen w).length))
  else none

/-- Strip the default group or heading wrapper lines from an output unit. -/
def stripUnit (u : List Char) : List Char :=
  match stripTag (str "ContentWrapper") u with
  | some x => x
  | none =>
    match stripTag (str "HeadingWrapper") u with
    | some x => x
    | none => u

/-- Hypothesis of the amended completeness claim: if a block's trimmed text
matches the heading pattern, it consists of that heading line alone (no
line terminators). -/
def hdOKb (b : List Char) : Bool :=
  !(headingExec (trimJS b)).isSome || (trimJS b).all (fun c => !isLineTerm c)

/-- Does `pat` occur as a contiguous substring? -/
def containsSub (pat : List Char) : List Char → Bool
  | [] => pat.isPrefixOf []
  | c :: rest => pat.isPrefixOf (c :: rest) || containsSub pat rest

/-! ## Helper lemmas -/

theorem findNLdashes_some_sub {l : List Char} {j : Nat}
    (h : findNLdashes l = some j) : (str "\n---").isPrefixOf (l.drop j) = true := by
  induction l generalizing j with
  | nil => simp [findNLdashes] at h
  | cons c rest ih =>
    rw [findNLdashes] at h
    split at h
    next hcond =>
      cases h
      simpa using hcond
    next =>
      rcases Option.map_eq_some'.mp h with ⟨j', hj', rfl⟩
      simpa using ih hj'

theorem containsSub_false_drop {pat l : List Char} (h : containsSub pat l = false)
    (hne : pat ≠ []) : ∀ j, pat.isPrefixOf (l.drop j) = false := by
  induction l with
  | nil =>
    intro j
    rcases pat with _ | ⟨p, ps⟩
    · exact absurd rfl hne
    · simp [List.isPrefixOf]
  | cons c rest ih =>
    rw [containsSub, Bool.or_eq_false_iff] at h
    intro j
    cases j with
    | zero => exact h.1
    | succ j' => exact ih h.2 j'

theorem fmExtract_none_of_noclose {content : List Char}
    (h : containsSub (str "\n---") content = false) : fmExtract content = none := by
  unfold fmExtract
  split
  · cases hnd : findNLdashes (content.drop 4) with
    | none => simp
    | some j =>
      exfalso
      have h1 := findNLdashes_some_sub hnd
      rw [List.drop_drop] at h1
      have h2 := containsSub_false_drop h (by decide) (4 + j)
      rw [h1] at h2
      cases h2
  · rfl

theorem stage_none_eq (pre content : List Char) (h : fmExtract content = none) :
    frontMatterStage pre content = str "---\n\ncover_url: \n---\n" ++ content := by
  rw [frontMatterStage, h]
  have h2 : updFM pre [] = str "\ncover_url: " := by
    simp [updFM, findCoverCap]
  rw [h2]
  have h3 : str "---\n" ++ (str "\ncover_url: " ++ str "\n---\n") =
      str "---\n\ncover_url: \n---\n" := by decide
  rw [← h3]
  simp [List.append_assoc]

/-! ## Claim theorems: concrete scenarios -/

/-- C4: the block wrapper applied to `# Title\n\nSome text.\n\nMore text.`
with tags `W`, `H` returns exactly the heading wrapped alone in `H` followed
by the two plain blocks merged into one `W` unit, joined by a blank line. -/
theorem C4_wrap_scenario1 :
    wrapWithCustomComponent (str "# Title\n\nSome text.\n\nMore text.") (str "W") (str "H") =
      str "<H>\n# Title\n</H>\n\n<W>\nSome text.\n\nMore text.\n</W>" := by decide

/-- C3: a front matter containing `cover_url: "[[cover.png]]"` is rewritten
with urlPrefix `/work/proj/` to the unquoted line
`cover_url: /work/proj/cover.png` (quotes and wiki brackets stripped, the
remainder joined onto the prefix). -/
theorem C3_wiki_cover_rewrite :
    rewriteStage (str "/work/proj/") (str "---\ncover_url: \"[[cover.png]]\"\n---\nbody") =
      str "---\ncover_url: /work/proj/cover.png\n---\n\nbody" := by decide

/-- C10: for a document with no front matter whose body is a single plain
paragraph, the composed pipeline emits the whole document — synthesized
fences, cover_url line and paragraph — inside one single ContentWrapper
unit: the blank line inside the synthesized front matter splits the opening
fence from the rest and neither piece matches the front-matter regex. -/
theorem C10_synthesized_front_matter_wrapped :
    wrapResultList (rewriteStage (str "/work/proj/") (str "Hello world."))
        (str "ContentWrapper") (str "HeadingWrapper") =
      [wrapUnit (str "ContentWrapper") (str "---\n\ncover_url: \n---\nHello world.")] ∧
    processContent (str "/work/proj/") (str "Hello world.") =
      str "<ContentWrapper>\n---\n\ncover_url: \n---\nHello world.\n</ContentWrapper>" := by
  exact ⟨by decide, by decide⟩

/-! ## Claim theorems: counterexamples -/

/-- C1 counterexample: for the input `# T\nx` — a single multi-line block
whose first line matches the heading pattern — the wrapper re-emits only the
matched hashes and heading text, so the non-whitespace content of the
emitted units (wrapper lines stripped) loses the `x`. -/
theorem C1_counterexample :
    nonWS (List.flatten ((wrapResultList (str "# T\nx")
        (str "ContentWrapper") (str "HeadingWrapper")).map stripUnit)) ≠
      nonWS (str "# T\nx") := by decide

/-- C2 counterexample: the front matter consisting of the single line
`cover_url: /x cover_url: "hi"` — whose value starts with `/` — is not left
byte-identical by the rewrite: the quoted-replacement regex matches the
second `cover_url:` occurrence inside the line and rewrites it, so the line
no longer occurs as a line of the updated front matter. -/
theorem C2_counterexample :
    ¬ ∃ A' B', updFM (str "/work/proj/") (str "cover_url: /x cover_url: \"hi\"") =
        A' ++ str "cover_url: /x cover_url: \"hi\"" ++ B' ∧
        (A' = [] ∨ A'.getLast? = some '\n') ∧ (B' = [] ∨ B'.head? = some '\n') := by
  rintro ⟨A', B', heq, hA, hB⟩
  have hnl : '\n' ∉ updFM (str "/work/proj/") (str "cover_url: /x cover_url: \"hi\"") := by
    decide
  rw [heq] at hnl
  have hA' : A' = [] := by
    rcases hA with h | h
    · exact h
    · exfalso
      apply hnl
      rcases List.getLast?_eq_some_iff.mp h with ⟨ys, hys⟩
      rw [hys]
      simp
  have hB' : B' = [] := by
    rcases hB with h | h
    · exact h
    · exfalso
      apply hnl
      rcases List.head?_eq_some_iff.mp h with ⟨ys, hys⟩
      rw [hys]
      simp
  rw [hA', hB'] at heq
  simp at heq
  have hne : updFM (str "/work/proj/") (str "cover_url: /x cover_url: \"hi\"") ≠
      str "cover_url: /x cover_url: \"hi\"" := by decide
  exact hne heq

/-- C9 counterexample: for `![images/a.png](images/a.png)` — alt text equal
to the path — the callback `match.replace(p1, prefix + p1)` rewrites the
first occurrence of the path, which is the alt text, leaving the path
untouched; the claimed output (alt preserved, path rewritten) is not
produced. -/
theorem C9_counterexample :
    imageStage (str "/work/proj/") (str "![images/a.png](images/a.png)") =
      str "![/work/proj/images/a.png](images/a.png)" ∧
    imageStage (str "/work/proj/") (str "![images/a.png](images/a.png)") ≠
      str "![images/a.png](/work/proj/images/a.png)" := by
  exact ⟨by decide, by decide⟩

/-! ## Claim theorems: classification and degradation -/

/-- C5: a block whose trimmed text matches the heading pattern is handled by
the heading rule even when it also passes the opaque test: the loop emits,
after any pending flush, exactly the heading wrapped in the heading tag and
clears the run — it is never passed through unwrapped and never grouped. -/
theorem C5_heading_priority (w hw cur b : List Char) (bs : List (List Char))
    (hs hc : List Char)
    (hh : headingExec (trimJS b) = some (hs, hc))
    ( _hop : opaqueTest (trimJS b) = true) :
    wrapLoop w hw (b :: bs) cur =
      flushIf w cur ++ headingUnit hw hs hc :: wrapLoop w hw bs [] := by
  rw [wrapLoop, hh]

/-- C5 witness: the block `# Title\n![a](x.png)` matches both the heading
pattern (first line) and the image pattern (second line), and is emitted as
a heading unit. -/
theorem C5_heading_priority_witness :
    headingExec (trimJS (str "# Title\n![a](x.png)")) = some (str "#", str "Title") ∧
    opaqueTest (trimJS (str "# Title\n![a](x.png)")) = true ∧
    wrapLoop (str "W") (str "H") [str "# Title\n![a](x.png)"] [] =
      flushIf (str "W") [] ++ headingUnit (str "H") (str "#") (str "Title") ::
        wrapLoop (str "W") (str "H") [] [] :=
  ⟨by decide, by decide,
    C5_heading_priority (str "W") (str "H") [] (str "# Title\n![a](x.png)") []
      (str "#") (str "Title") (by decide) (by decide)⟩

/-- C6: a document that does not begin with a front-matter fence is treated
as body with empty front matter; the rewrite stage appends an empty
cover_url key and reassembles to exactly `---\n\ncover_url: \n---\n`
followed by the body unchanged (assuming the image rewrite leaves the body
unchanged). -/
theorem C6_no_front_matter (pre content : List Char)
    (hfm : (str "---\n").isPrefixOf content = false)
    (himg : imageStage pre content = content) :
    rewriteStage pre content = str "---\n\ncover_url: \n---\n" ++ content := by
  have h1 : fmExtract content = none := by
    unfold fmExtract
    rw [hfm]
    simp
  rw [rewriteStage, himg]
  exact stage_none_eq pre content h1

/-- C6 witness: the hypotheses and conclusion at the concrete body
`Hello world.`. -/
theorem C6_no_front_matter_witness :
    (str "---\n").isPrefixOf (str "Hello world.") = false ∧
    imageStage (str "/work/proj/") (str "Hello world.") = str "Hello world." ∧
    rewriteStage (str "/work/proj/") (str "Hello world.") =
      str "---\n\ncover_url: \n---\n" ++ str "Hello world." :=
  ⟨by decide, by decide,
    C6_no_front_matter (str "/work/proj/") (str "Hello world.") (by decide) (by decide)⟩

/-- C8: a document that begins with `---` but contains no closing fence
(no `\n---` anywhere) is treated as having no front matter — the extraction
returns none, and the stage degrades to the empty-front-matter output with
the whole text as body; being a total function, it signals no error. -/
theorem C8_unterminated_fence (pre content : List Char)
    ( _hstart : (str "---").isPrefixOf content = true)
    (hnoclose : containsSub (str "\n---") content = false) :
    fmExtract content = none ∧
    frontMatterStage pre content = str "---\n\ncover_url: \n---\n" ++ content := by
  have h1 := fmExtract_none_of_noclose hnoclose
  exact ⟨h1, stage_none_eq pre content h1⟩

/-! ## Completeness machinery: non-whitespace content through the pipeline -/

theorem nonWS_append (a b : List Char) : nonWS (a ++ b) = nonWS a ++ nonWS b :=
  List.filter_append a b

theorem nonWS_cons (c : Char) (l : List Char) : nonWS (c :: l) = nonWS [c] ++ nonWS l := by
  by_cases h : jsWS c <;> simp [nonWS, List.filter_cons, h]

theorem nonWS_dropWhile (l : List Char) : nonWS (l.dropWhile jsWS) = nonWS l := by
  induction l with
  | nil => rfl
  | cons c rest ih =>
    by_cases h : jsWS c
    · rw [List.dropWhile_cons]
      simp only [h, if_true]
      rw [ih]
      simp [nonWS, List.filter_cons, h]
    · rw [List.dropWhile_cons]
      simp [h]

theorem nonWS_reverse (l : List Char) : nonWS l.reverse = (nonWS l).reverse :=
  List.filter_reverse _ _

theorem nonWS_trimJS (l : List Char) : nonWS (trimJS l) = nonWS l := by
  rw [trimJS, nonWS_reverse, nonWS_dropWhile, nonWS_reverse, List.reverse_reverse,
    nonWS_dropWhile]

theorem mem_trimJS {c : Char} {l : List Char} (h : c ∈ trimJS l) : c ∈ l := by
  rw [trimJS, List.mem_reverse] at h
  have h2 := List.Sublist.mem h (List.dropWhile_sublist _)
  rw [List.mem_reverse] at h2
  exact List.Sublist.mem h2 (List.dropWhile_sublist _)

theorem lastNL_lt {l : List Char} {k : Nat} (h : lastNL l = some k) : k < l.length := by
  induction l generalizing k with
  | nil => simp [lastNL] at h
  | cons c rest ih =>
    rw [lastNL] at h
    cases h' : lastNL rest with
    | some k' =>
      simp only [h'] at h
      cases h
      exact Nat.succ_lt_succ (ih h')
    | none =>
      simp only [h'] at h
      split at h
      · cases h
        simp
      · cases h

theorem sepRem_facts {l rem : List Char} (h : sepRem l = some rem) :
    nonWS rem = nonWS l ∧ rem.length < l.length ∧ ∀ c ∈ rem, c ∈ l := by
  cases l with
  | nil => simp [sepRem] at h
  | cons c rest =>
    rw [sepRem] at h
    split at h
    case isTrue hc =>
      cases h' : lastNL (rest.takeWhile jsWS) with
      | none => rw [h'] at h; cases h
      | some k =>
        rw [h'] at h
        cases h
        have hk : k + 1 ≤ (rest.takeWhile jsWS).length := lastNL_lt h'
        have htw : ∀ x ∈ rest.take (k + 1), jsWS x = true := by
          intro x hx
          have heq : rest.take (k + 1) = (rest.takeWhile jsWS).take (k + 1) := by
            conv_lhs => rw [← List.takeWhile_append_dropWhile jsWS rest]
            rw [List.take_append_of_le_length hk]
          rw [heq] at hx
          exact List.mem_takeWhile_imp (List.mem_of_mem_take hx)
        refine ⟨?_, ?_, ?_⟩
        · have h1 : nonWS (c :: rest) = nonWS rest := by
            subst hc
            simp [nonWS, List.filter_cons, show jsWS '\n' = true from by decide]
          rw [h1]
          conv_rhs => rw [← List.take_append_drop (k + 1) rest]
          rw [nonWS_append]
          have h2 : nonWS (rest.take (k + 1)) = [] := by
            apply List.filter_eq_nil_iff.mpr
            intro a ha
            simp [htw a ha]
          rw [h2, List.nil_append]
        · simp only [List.length_drop, List.length_cons]
          omega
        · intro x hx
          exact List.mem_cons_of_mem _ (List.mem_of_mem_drop hx)
    case isFalse => cases h

theorem splitAuxF_nonWS : ∀ (fuel : Nat) (l acc : List Char), l.length < fuel →
    List.flatten ((splitAuxF fuel l acc).map nonWS) = nonWS acc.reverse ++ nonWS l := by
  intro fuel
  induction fuel with
  | zero => intro l acc h; omega
  | succ fuel ih =>
    intro l acc h
    cases l with
    | nil => simp [splitAuxF, nonWS]
    | cons c rest =>
      rw [splitAuxF]
      simp only [List.length_cons] at h
      cases hsep : sepRem (c :: rest) with
      | some rem =>
        obtain ⟨hnw, hlen, _⟩ := sepRem_facts hsep
        simp only [List.map_cons, List.flatten_cons]
        rw [ih rem [] (by simp only [List.length_cons] at hlen; omega)]
        rw [hnw]
        simp [nonWS]
      | none =>
        rw [ih rest (c :: acc) (by omega)]
        rw [List.reverse_cons, nonWS_append, List.append_assoc, ← nonWS_cons]

theorem splitAuxF_mem : ∀ (fuel : Nat) (l acc b : List Char) (c : Char),
    l.length < fuel → b ∈ splitAuxF fuel l acc → c ∈ b → c ∈ acc ∨ c ∈ l := by
  intro fuel
  induction fuel with
  | zero => intro l acc b c h; omega
  | succ fuel ih =>
    intro l acc b c h hb hc
    cases l with
    | nil =>
      rw [splitAuxF] at hb
      rw [List.mem_singleton] at hb
      subst hb
      rw [List.mem_reverse] at hc
      exact Or.inl hc
    | cons d rest =>
      rw [splitAuxF] at hb
      simp only [List.length_cons] at h
      cases hsep : sepRem (d :: rest) with
      | some rem =>
        rw [hsep] at hb
        obtain ⟨_, hlen, hmem⟩ := sepRem_facts hsep
        rcases List.mem_cons.mp hb with hb | hb
        · subst hb
          rw [List.mem_reverse] at hc
          exact Or.inl hc
        · rcases ih rem [] b c (by simp only [List.length_cons] at hlen; omega) hb hc with
            h' | h'
          · simp at h'
          · exact Or.inr (hmem c h')
      | none =>
        rw [hsep] at hb
        rcases ih rest (d :: acc) b c (by omega) hb hc with h' | h'
        · rcases List.mem_cons.mp h' with h'' | h''
          · subst h''
            exact Or.inr (List.mem_cons_self _ _)
          · exact Or.inl h''
        · exact Or.inr (List.mem_cons_of_mem _ h')

theorem splitBlocks_nonWS (content : List Char) :
    List.flatten ((splitBlocks content).map nonWS) = nonWS content := by
  rw [splitBlocks, splitAuxF_nonWS (content.length + 1) content [] (by omega)]
  simp [nonWS]

theorem splitBlocks_mem {content b : List Char} {c : Char}
    (hb : b ∈ splitBlocks content) (hc : c ∈ b) : c ∈ content := by
  rcases splitAuxF_mem (content.length + 1) content [] b c (by omega) hb hc with h | h
  · simp at h
  · exact h

/-! ## Structure of heading matches and the strip functions -/

theorem headingAt_structure {l hs hc : List Char} (h : headingAt l = some (hs, hc)) :
    (∀ c ∈ hs, c = '#') ∧
      ∃ w r, l = hs ++ w ++ r ∧ (∀ c ∈ w, jsWS c = true) ∧ hc = takeNoLT r := by
  rw [headingAt.eq_def] at h
  split at h
  · cases h
  next c1 rest1 =>
    split at h
    case isTrue hc1 =>
      split at h
      · cases h
      next c2 rest2 =>
        split at h
        case isTrue hc2 =>
          split at h
          · cases h
          next c3 rest3 =>
            split at h
            case isTrue hws =>
              injection h with h1
              rw [Prod.mk.injEq] at h1
              obtain ⟨hhs, hhc⟩ := h1
              subst hhs
              subst hhc
              subst hc1
              subst hc2
              refine ⟨by intro x hx; simpa using hx, (c3 :: rest3).takeWhile jsWS,
                (c3 :: rest3).dropWhile jsWS, ?_, ?_, rfl⟩
              · rw [List.append_assoc, List.takeWhile_append_dropWhile]
                rfl
              · intro x hx
                exact List.mem_takeWhile_imp hx
            case isFalse => cases h
        case isFalse hc2 =>
          split at h
          case isTrue hws =>
            injection h with h1
            rw [Prod.mk.injEq] at h1
            obtain ⟨hhs, hhc⟩ := h1
            subst hhs
            subst hhc
            subst hc1
            refine ⟨by intro x hx; simpa using hx, (c2 :: rest2).takeWhile jsWS,
              (c2 :: rest2).dropWhile jsWS, ?_, ?_, rfl⟩
            · rw [List.append_assoc, List.takeWhile_append_dropWhile]
              rfl
            · intro x hx
              exact List.mem_takeWhile_imp hx
          case isFalse => cases h
    case isFalse => cases h

theorem headingScanAfter_noLT {l : List Char} (h : ∀ c ∈ l, isLineTerm c = false) :
    headingScanAfter l = none := by
  induction l with
  | nil => rfl
  | cons c rest ih =>
    rw [headingScanAfter, h c (List.mem_cons_self c rest)]
    simp only [Bool.false_eq_true, if_false]
    exact ih fun x hx => h x (List.mem_cons_of_mem c hx)

theorem headingExec_noLT_structure {l hs hc : List Char}
    (hnl : ∀ c ∈ l, isLineTerm c = false) (h : headingExec l = some (hs, hc)) :
    (∀ c ∈ hs, c = '#') ∧
      ∃ w r, l = hs ++ w ++ r ∧ (∀ c ∈ w, jsWS c = true) ∧ hc = r := by
  rw [headingExec] at h
  cases hat : headingAt l with
  | none => rw [hat, headingScanAfter_noLT hnl] at h; cases h
  | some pr =>
    rw [hat] at h
    cases h
    obtain ⟨hhash, w, r, hl, hw, hhc⟩ := headingAt_structure hat
    refine ⟨hhash, w, r, hl, hw, ?_⟩
    rw [hhc, takeNoLT]
    apply List.takeWhile_eq_self_iff.mpr
    intro x hx
    have hxl : x ∈ l := by
      rw [hl]
      simp [hx]
    simp [hnl x hxl]

theorem wrapUnit_eq (w x : List Char) : wrapUnit w x = tagOpen w ++ x ++ tagClose w := by
  simp [wrapUnit, tagOpen, tagClose]

theorem headingUnit_eq (hw hs hc : List Char) :
    headingUnit hw hs hc = tagOpen hw ++ (hs ++ ' ' :: hc) ++ tagClose hw := by
  simp [headingUnit, tagOpen, tagClose]

theorem stripTag_roundtrip (w x : List Char) :
    stripTag w (tagOpen w ++ x ++ tagClose w) = some x := by
  have h2 : (tagOpen w ++ x ++ tagClose w).drop (tagOpen w).length = x ++ tagClose w := by
    rw [List.append_assoc]
    exact List.drop_left _ _
  have h1 : (tagOpen w).isPrefixOf (tagOpen w ++ x ++ tagClose w) = true := by
    rw [List.isPrefixOf_iff_prefix, List.append_assoc]
    exact List.prefix_append _ _
  have h3 : (tagClose w).isSuffixOf (x ++ tagClose w) = true := by
    rw [List.isSuffixOf_iff_suffix]
    exact List.suffix_append _ _
  rw [stripTag, h2, h1, h3]
  simp [dropLastN, List.length_append, List.take_left]

theorem prefix_tag_names {a b as bs : List Char} (ha : '>' ∉ a) (hb : '>' ∉ b)
    (h : a ++ '>' :: as <+: b ++ '>' :: bs) : a = b := by
  induction a generalizing b with
  | nil =>
    cases b with
    | nil => rfl
    | cons d b' =>
      exfalso
      rw [List.nil_append, List.cons_append, List.cons_prefix_cons] at h
      exact hb (h.1 ▸ List.mem_cons_self d b')
  | cons c a' ih =>
    cases b with
    | nil =>
      exfalso
      rw [List.nil_append, List.cons_append, List.cons_prefix_cons] at h
      exact ha (h.1 ▸ List.mem_cons_self c a')
    | cons d b' =>
      rw [List.cons_append, List.cons_append, List.cons_prefix_cons] at h
      obtain ⟨rfl, h'⟩ := h
      rw [ih (fun hx => ha (List.mem_cons_of_mem _ hx))
        (fun hx => hb (List.mem_cons_of_mem _ hx)) h']

theorem stripTag_tagOpen_ne (w w' y : List Char) (hne : w ≠ w')
    (hw : '>' ∉ w) (hw' : '>' ∉ w') : stripTag w (tagOpen w' ++ y) = none := by
  have hp : (tagOpen w).isPrefixOf (tagOpen w' ++ y) = false := by
    apply Bool.eq_false_iff.mpr
    intro hcontra
    rw [List.isPrefixOf_iff_prefix] at hcontra
    have hshape : tagOpen w ++ [] = '<' :: (w ++ '>' :: ['\n']) := by
      simp [tagOpen]
    simp only [tagOpen, List.cons_append, List.append_assoc] at hcontra
    rw [List.cons_prefix_cons] at hcontra
    have h2 : w ++ '>' :: ('\n' :: []) <+: w' ++ '>' :: ('\n' :: y) := by
      simpa using hcontra.2
    exact hne (prefix_tag_names hw hw' h2)
  rw [stripTag, hp]
  simp

theorem stripTag_no_langle {w u : List Char} (h : '<' ∉ u) : stripTag w u = none := by
  have hp : (tagOpen w).isPrefixOf u = false := by
    apply Bool.eq_false_iff.mpr
    intro hc
    rw [List.isPrefixOf_iff_prefix] at hc
    cases u with
    | nil =>
      simp [tagOpen] at hc
    | cons d u' =>
      rw [show tagOpen w = '<' :: (w ++ ['>', '\n']) from rfl, List.cons_prefix_cons] at hc
      exact h (hc.1 ▸ List.mem_cons_self d u')
  rw [stripTag, hp]
  simp

theorem stripUnit_wrap (x : List Char) :
    stripUnit (wrapUnit (str "ContentWrapper") x) = x := by
  rw [stripUnit, wrapUnit_eq, stripTag_roundtrip]

theorem stripUnit_heading (hs hc : List Char) :
    stripUnit (headingUnit (str "HeadingWrapper") hs hc) = hs ++ ' ' :: hc := by
  have h1 : stripTag (str "ContentWrapper") (headingUnit (str "HeadingWrapper") hs hc) =
      none := by
    rw [headingUnit_eq, List.append_assoc]
    exact stripTag_tagOpen_ne _ _ _ (by decide) (by decide) (by decide)
  have h2 : stripTag (str "HeadingWrapper") (headingUnit (str "HeadingWrapper") hs hc) =
      some (hs ++ ' ' :: hc) := by
    rw [headingUnit_eq]
    exact stripTag_roundtrip _ _
  rw [stripUnit, h1, h2]

theorem stripUnit_id {u : List Char} (h : '<' ∉ u) : stripUnit u = u := by
  rw [stripUnit, stripTag_no_langle h, stripTag_no_langle h]

/-! ## The wrapping loop preserves non-whitespace content -/

theorem flush_nonWS (cur : List Char) :
    nonWS (List.flatten ((flushIf (str "ContentWrapper") cur).map stripUnit)) = nonWS cur := by
  by_cases hc : cur = []
  · subst hc
    simp [flushIf, nonWS]
  · rw [flushIf, if_neg hc]
    simp [stripUnit_wrap, nonWS_trimJS]

theorem wrapLoop_nonWS : ∀ (bs : List (List Char)) (cur : List Char),
    (∀ b ∈ bs, hdOKb b = true) → (∀ b ∈ bs, '<' ∉ b) → '<' ∉ cur →
    nonWS (List.flatten ((wrapLoop (str "ContentWrapper") (str "HeadingWrapper")
        bs cur).map stripUnit)) =
      nonWS cur ++ List.flatten (bs.map nonWS) := by
  intro bs
  induction bs with
  | nil =>
    intro cur _ _ _
    rw [wrapLoop]
    simp [flush_nonWS]
  | cons b bs ih =>
    intro cur hhd hlt hcur
    have hhdb := hhd b (List.mem_cons_self _ _)
    have hltb := hlt b (List.mem_cons_self _ _)
    have hhds : ∀ x ∈ bs, hdOKb x = true := fun x hx => hhd x (List.mem_cons_of_mem _ hx)
    have hlts : ∀ x ∈ bs, '<' ∉ x := fun x hx => hlt x (List.mem_cons_of_mem _ hx)
    have hlttb : '<' ∉ trimJS b := fun hx => hltb (mem_trimJS hx)
    rw [wrapLoop]
    cases hexec : headingExec (trimJS b) with
    | some pr =>
      obtain ⟨hs, hc⟩ := pr
      have hnolt : ∀ c ∈ trimJS b, isLineTerm c = false := by
        rw [hdOKb, hexec] at hhdb
        simp only [Option.isSome_some, Bool.not_true, Bool.false_or] at hhdb
        intro c hcx
        have := List.all_eq_true.mp hhdb c hcx
        simpa using this
      obtain ⟨hhash, w, r, hlb, hw, rfl⟩ := headingExec_noLT_structure hnolt hexec
      simp only [List.map_append, List.flatten_append, List.map_cons, List.flatten_cons,
        nonWS_append]
      rw [flush_nonWS, stripUnit_heading, ih [] hhds hlts (by simp)]
      have hb : nonWS b = hs ++ nonWS hc := by
        rw [← nonWS_trimJS b, hlb, nonWS_append, nonWS_append]
        have h1 : nonWS hs = hs := by
          apply List.filter_eq_self.mpr
          intro a ha
          rw [hhash a ha]
          decide
        have h2 : nonWS w = [] := by
          apply List.filter_eq_nil_iff.mpr
          intro a ha
          simp [hw a ha]
        rw [h1, h2, List.append_nil]
      rw [nonWS_append]
      have h3 : nonWS (' ' :: hc) = nonWS hc := by
        simp [nonWS, List.filter_cons, show jsWS ' ' = true from by decide]
      have h4 : nonWS hs = hs := by
        apply List.filter_eq_self.mpr
        intro a ha
        rw [hhash a ha]
        decide
      rw [h3, h4, hb]
      simp [nonWS, List.append_assoc]
    | none =>
      by_cases hop : opaqueTest (trimJS b)
      · simp only [hop, if_true]
        simp only [List.map_append, List.flatten_append, List.map_cons, List.flatten_cons,
          nonWS_append]
        rw [flush_nonWS, stripUnit_id hlttb, ih [] hhds hlts (by simp)]
        rw [nonWS_trimJS]
        simp [nonWS, List.append_assoc]
      · rw [if_neg hop]
        by_cases hce : cur = []
        · subst hce
          rw [if_pos rfl]
          rw [ih (trimJS b) hhds hlts hlttb]
          rw [nonWS_trimJS]
          simp [nonWS]
        · rw [if_neg hce]
          have hcur' : '<' ∉ cur ++ '\n' :: '\n' :: trimJS b := by
            intro hx
            rcases List.mem_append.mp hx with hx | hx
            · exact hcur hx
            · rcases List.mem_cons.mp hx with hx | hx
              · cases hx
              · rcases List.mem_cons.mp hx with hx | hx
                · cases hx
                · exact hlttb hx
          rw [ih _ hhds hlts hcur']
          rw [nonWS_append]
          have h5 : nonWS ('\n' :: '\n' :: trimJS b) = nonWS b := by
            have h6 : nonWS ('\n' :: '\n' :: trimJS b) = nonWS (trimJS b) := by
              simp [nonWS, List.filter_cons, show jsWS '\n' = true from by decide]
            rw [h6, nonWS_trimJS]
          rw [h5]
          simp [List.append_assoc]

/-- C1 amended: for every input in which each block matching the heading
pattern is a single heading line, and which contains no `<` character (so
no block collides with the wrapper tags), concatenating the emitted units
after stripping the wrapper lines reproduces the input's non-whitespace
content exactly.  (The unrestricted claim fails: see the counterexample,
where a multi-line heading-matching block loses its remaining lines.) -/
theorem C1_completeness_amended (content : List Char)
    (hhd : ∀ b ∈ splitBlocks content, hdOKb b = true)
    (hlt : '<' ∉ content) :
    nonWS (List.flatten ((wrapResultList content (str "ContentWrapper")
        (str "HeadingWrapper")).map stripUnit)) = nonWS content := by
  rw [wrapResultList]
  rw [wrapLoop_nonWS (splitBlocks content) [] hhd
    (fun b hb hx => hlt (splitBlocks_mem hb hx)) (by simp)]
  rw [splitBlocks_nonWS]
  simp [nonWS]

/-- C1 witness: the amended completeness claim holds at a concrete document
with a heading, two plain paragraphs and an image block. -/
theorem C1_completeness_amended_witness :
    (∀ b ∈ splitBlocks (str "# Title\n\nSome text.\n\n![a](x.png)"), hdOKb b = true) ∧
    '<' ∉ str "# Title\n\nSome text.\n\n![a](x.png)" ∧
    nonWS (List.flatten ((wrapResultList (str "# Title\n\nSome text.\n\n![a](x.png)")
        (str "ContentWrapper") (str "HeadingWrapper")).map stripUnit)) =
      nonWS (str "# Title\n\nSome text.\n\n![a](x.png)") :=
  ⟨by decide, by decide, C1_completeness_amended _ (by decide) (by decide)⟩

/-! ## Grouping machinery: the loop's pending run -/

theorem wrapLoop_cons_heading {b hs hc : List Char} (w hw : List Char)
    (bs : List (List Char)) (cur : List Char)
    (h : headingExec (trimJS b) = some (hs, hc)) :
    wrapLoop w hw (b :: bs) cur =
      flushIf w cur ++ headingUnit hw hs hc :: wrapLoop w hw bs [] := by
  rw [wrapLoop, h]

theorem wrapLoop_cons_opq {b : List Char} (w hw : List Char)
    (bs : List (List Char)) (cur : List Char)
    (hh : headingExec (trimJS b) = none) (hop : opaqueTest (trimJS b) = true) :
    wrapLoop w hw (b :: bs) cur =
      flushIf w cur ++ trimJS b :: wrapLoop w hw bs [] := by
  rw [wrapLoop, hh]
  simp only [hop, if_true]

theorem wrapLoop_cons_plain {b : List Char} (w hw : List Char)
    (bs : List (List Char)) (cur : List Char)
    (hh : headingExec (trimJS b) = none) (hop : opaqueTest (trimJS b) = false) :
    wrapLoop w hw (b :: bs) cur =
      wrapLoop w hw bs (if cur = [] then trimJS b else cur ++ '\n' :: '\n' :: trimJS b) := by
  rw [wrapLoop, hh]
  simp only [hop, Bool.false_eq_true, if_false]

theorem wrapLoop_append (w hw : List Char) (xs ys : List (List Char)) :
    ∀ cur, ∃ E cur', wrapLoop w hw (xs ++ ys) cur = E ++ wrapLoop w hw ys cur' := by
  induction xs with
  | nil => exact fun cur => ⟨[], cur, by simp⟩
  | cons x xs ih =>
    intro cur
    rw [List.cons_append]
    cases hexec : headingExec (trimJS x) with
    | some pr =>
      obtain ⟨hs, hc⟩ := pr
      rw [wrapLoop_cons_heading w hw _ cur hexec]
      obtain ⟨E, cur', hE⟩ := ih []
      exact ⟨flushIf w cur ++ headingUnit hw hs hc :: E, cur', by rw [hE]; simp⟩
    | none =>
      by_cases hop : opaqueTest (trimJS x)
      · rw [wrapLoop_cons_opq w hw _ cur hexec hop]
        obtain ⟨E, cur', hE⟩ := ih []
        exact ⟨flushIf w cur ++ trimJS x :: E, cur', by rw [hE]; simp⟩
      · rw [wrapLoop_cons_plain w hw _ cur hexec (by simpa using hop)]
        exact ih _

theorem wrapLoop_first_unit (w hw : List Char) :
    ∀ (bs : List (List Char)) (cur : List Char), cur ≠ [] →
    ∃ ext rest, wrapLoop w hw bs cur = wrapUnit w (trimJS (cur ++ ext)) :: rest := by
  intro bs
  induction bs with
  | nil =>
    intro cur hc
    refine ⟨[], [], ?_⟩
    rw [wrapLoop, flushIf, if_neg hc]
    simp
  | cons b bs ih =>
    intro cur hc
    cases hexec : headingExec (trimJS b) with
    | some pr =>
      obtain ⟨hs, hcc⟩ := pr
      refine ⟨[], headingUnit hw hs hcc :: wrapLoop w hw bs [], ?_⟩
      rw [wrapLoop_cons_heading w hw bs cur hexec, flushIf, if_neg hc]
      simp
    | none =>
      by_cases hop : opaqueTest (trimJS b)
      · refine ⟨[], trimJS b :: wrapLoop w hw bs [], ?_⟩
        rw [wrapLoop_cons_opq w hw bs cur hexec hop, flushIf, if_neg hc]
        simp
      · rw [wrapLoop_cons_plain w hw bs cur hexec (by simpa using hop), if_neg hc]
        obtain ⟨ext', rest, hE⟩ := ih (cur ++ '\n' :: '\n' :: trimJS b)
          (by simp [List.append_eq_nil])
        refine ⟨'\n' :: '\n' :: trimJS b ++ ext', rest, ?_⟩
        rw [hE]
        simp [List.append_assoc]

theorem dropWhile_eq_self_of_head {p : Char → Bool} {l : List Char} {c : Char}
    (h : l.head? = some c) (hc : p c = false) : l.dropWhile p = l := by
  rcases List.head?_eq_some_iff.mp h with ⟨ys, rfl⟩
  rw [List.dropWhile_cons, hc]
  simp

theorem dropWhile_head_false {p : Char → Bool} {l : List Char} {c : Char} {t : List Char}
    (h : l.dropWhile p = c :: t) : p c = false := by
  induction l with
  | nil => cases h
  | cons d l' ih =>
    rw [List.dropWhile_cons] at h
    split at h
    case isTrue => exact ih h
    case isFalse hpd =>
      injection h with h1 h2
      subst h1
      simpa using hpd

theorem trimJS_prefix_dropWhile (l : List Char) : trimJS l <+: l.dropWhile jsWS := by
  rw [trimJS]
  have h : (l.dropWhile jsWS).reverse.dropWhile jsWS <:+ (l.dropWhile jsWS).reverse :=
    List.dropWhile_suffix jsWS
  have h2 := List.reverse_prefix.mpr h
  rwa [List.reverse_reverse] at h2

theorem trimJS_head_nonWS {l : List Char} {c : Char}
    (h : (trimJS l).head? = some c) : jsWS c = false := by
  rcases List.head?_eq_some_iff.mp h with ⟨t0, heq⟩
  rcases trimJS_prefix_dropWhile l with ⟨rest, hr⟩
  rw [heq] at hr
  exact dropWhile_head_false hr.symm

theorem trimJS_getLast_nonWS {l : List Char} {d : Char}
    (h : (trimJS l).getLast? = some d) : jsWS d = false := by
  rw [trimJS, List.getLast?_reverse] at h
  rcases List.head?_eq_some_iff.mp h with ⟨t0, heq⟩
  exact dropWhile_head_false heq

theorem infix_dropWhile {t s : List Char} {c : Char} (hh : t.head? = some c)
    (hc : jsWS c = false) (h : t <:+: s) : t <:+: s.dropWhile jsWS := by
  induction s with
  | nil =>
    rw [List.infix_nil] at h
    subst h
    cases hh
  | cons dd s' ih =>
    rw [List.dropWhile_cons]
    split
    case isTrue hdd =>
      apply ih
      rcases List.infix_cons_iff.mp h with hpre | hinf
      · exfalso
        rcases List.head?_eq_some_iff.mp hh with ⟨t0, rfl⟩
        rw [List.cons_prefix_cons] at hpre
        rw [hpre.1, hdd] at hc
        cases hc
      · exact hinf
    case isFalse => exact h

theorem infix_trimJS {t s : List Char} {c d : Char} (hh : t.head? = some c)
    (hc : jsWS c = false) (hl : t.getLast? = some d) (hd : jsWS d = false)
    (h : t <:+: s) : t <:+: trimJS s := by
  have h1 : t <:+: s.dropWhile jsWS := infix_dropWhile hh hc h
  have h2 : t.reverse <:+: (s.dropWhile jsWS).reverse := List.reverse_infix.mpr h1
  have h3 : t.reverse.head? = some d := by rw [List.head?_reverse, hl]
  have h4 : t.reverse <:+: ((s.dropWhile jsWS).reverse).dropWhile jsWS :=
    infix_dropWhile h3 hd h2
  have h5 := List.reverse_infix.mpr h4
  rw [List.reverse_reverse] at h5
  exact h5

theorem suffix_trimJS {t s : List Char} {c d : Char} (hh : t.head? = some c)
    (hc : jsWS c = false) (hl : t.getLast? = some d) (hd : jsWS d = false)
    (h : t <:+ s) : t <:+ trimJS s := by
  obtain ⟨a, rfl⟩ := h
  have h1 : (a ++ t).dropWhile jsWS = a.dropWhile jsWS ++ t ∨
      (a ++ t).dropWhile jsWS = t := by
    rw [List.dropWhile_append]
    split
    · exact Or.inr (dropWhile_eq_self_of_head hh hc)
    · exact Or.inl rfl
  have h2 : ∀ a' : List Char, ((a' ++ t).reverse).dropWhile jsWS = (a' ++ t).reverse := by
    intro a'
    exact dropWhile_eq_self_of_head
      (by rw [List.head?_reverse, List.getLast?_append, hl]; rfl) hd
  rcases h1 with h1 | h1
  · rw [trimJS, h1, h2 (a.dropWhile jsWS), List.reverse_reverse]
    exact List.suffix_append _ _
  · rw [trimJS, h1]
    have h3 : t.reverse.dropWhile jsWS = t.reverse :=
      dropWhile_eq_self_of_head (by rw [List.head?_reverse, hl]) hd
    rw [h3, List.reverse_reverse]

/-- C7: grouping of the block wrapper.  First part: whenever the block list
of a document splits as `pre ++ p1 :: p2 :: post` with `p1`, `p2` two
consecutive plain blocks (neither heading nor opaque, non-empty trims), the
emitted units contain a single group-wrapped unit holding both trimmed
blocks joined by a blank line.  Second part: a plain block immediately
followed by an opaque block produces two adjacent output units — a
group-wrapped unit ending in the plain run, then the opaque block's trimmed
text emitted with no wrapper around it. -/
theorem C7_grouping :
    (∀ (content w hw : List Char) (pre post : List (List Char)) (p1 p2 : List Char),
      splitBlocks content = pre ++ p1 :: p2 :: post →
      headingExec (trimJS p1) = none → opaqueTest (trimJS p1) = false → trimJS p1 ≠ [] →
      headingExec (trimJS p2) = none → opaqueTest (trimJS p2) = false → trimJS p2 ≠ [] →
      ∃ u ∈ wrapResultList content w hw, ∃ inner, u = wrapUnit w inner ∧
        (trimJS p1 ++ '\n' :: '\n' :: trimJS p2) <:+: inner) ∧
    (∀ (content w hw : List Char) (pre post : List (List Char)) (p o : List Char),
      splitBlocks content = pre ++ p :: o :: post →
      headingExec (trimJS p) = none → opaqueTest (trimJS p) = false → trimJS p ≠ [] →
      headingExec (trimJS o) = none → opaqueTest (trimJS o) = true →
      ∃ E rest inner, wrapResultList content w hw =
        E ++ wrapUnit w inner :: trimJS o :: rest ∧ trimJS p <:+ inner) := by
  constructor
  · intro content w hw pre post p1 p2 hsplit hh1 ho1 ht1 hh2 ho2 ht2
    rw [wrapResultList, hsplit]
    obtain ⟨E, cur', hE⟩ := wrapLoop_append w hw pre (p1 :: p2 :: post) []
    rw [hE, wrapLoop_cons_plain w hw _ cur' hh1 ho1, wrapLoop_cons_plain w hw _ _ hh2 ho2]
    set cur1 := if cur' = [] then trimJS p1 else cur' ++ '\n' :: '\n' :: trimJS p1 with hcur1
    have hc1ne : cur1 ≠ [] := by
      rw [hcur1]
      split
      · exact ht1
      · simp [List.append_eq_nil]
    rw [if_neg hc1ne]
    obtain ⟨ext, rest, hF⟩ :=
      wrapLoop_first_unit w hw post (cur1 ++ '\n' :: '\n' :: trimJS p2)
        (by simp [List.append_eq_nil])
    rw [hF]
    refine ⟨wrapUnit w (trimJS (cur1 ++ '\n' :: '\n' :: trimJS p2 ++ ext)), by simp,
      trimJS (cur1 ++ '\n' :: '\n' :: trimJS p2 ++ ext), rfl, ?_⟩
    have hinf : (trimJS p1 ++ '\n' :: '\n' :: trimJS p2) <:+:
        cur1 ++ '\n' :: '\n' :: trimJS p2 ++ ext := by
      have hsuf : ∃ a, cur1 = a ++ trimJS p1 := by
        rw [hcur1]
        split
        · exact ⟨[], rfl⟩
        · exact ⟨cur' ++ ['\n', '\n'], by simp⟩
      obtain ⟨a, ha⟩ := hsuf
      refine ⟨a, ext, ?_⟩
      rw [ha]
      simp [List.append_assoc]
    cases hhd : (trimJS p1).head? with
    | none =>
      exfalso
      exact ht1 (List.head?_eq_none_iff.mp hhd)
    | some c =>
      cases hgl : (trimJS p2).getLast? with
      | none =>
        exfalso
        exact ht2 (List.getLast?_eq_none_iff.mp hgl)
      | some d =>
        have hhead : (trimJS p1 ++ '\n' :: '\n' :: trimJS p2).head? = some c := by
          rcases List.head?_eq_some_iff.mp hhd with ⟨t0, hht⟩
          rw [hht]
          rfl
        have hlast : (trimJS p1 ++ '\n' :: '\n' :: trimJS p2).getLast? = some d := by
          rw [show trimJS p1 ++ '\n' :: '\n' :: trimJS p2 =
              (trimJS p1 ++ ['\n', '\n']) ++ trimJS p2 by simp,
            List.getLast?_append, hgl]
          rfl
        exact infix_trimJS hhead (trimJS_head_nonWS hhd) hlast
          (trimJS_getLast_nonWS hgl) hinf
  · intro content w hw pre post p o hsplit hhp hop htp hho hoo
    rw [wrapResultList, hsplit]
    obtain ⟨E, cur', hE⟩ := wrapLoop_append w hw pre (p :: o :: post) []
    rw [hE, wrapLoop_cons_plain w hw _ cur' hhp hop]
    set cur1 := if cur' = [] then trimJS p else cur' ++ '\n' :: '\n' :: trimJS p with hcur1
    have hc1ne : cur1 ≠ [] := by
      rw [hcur1]
      split
      · exact htp
      · simp [List.append_eq_nil]
    rw [wrapLoop_cons_opq w hw _ cur1 hho hoo, flushIf, if_neg hc1ne]
    refine ⟨E, wrapLoop w hw post [], trimJS cur1, by simp, ?_⟩
    have hsuf : trimJS p <:+ cur1 := by
      rw [hcur1]
      split
      · exact List.suffix_rfl
      · exact ⟨cur' ++ ['\n', '\n'], by simp⟩
    cases hhd : (trimJS p).head? with
    | none =>
      exfalso
      exact htp (List.head?_eq_none_iff.mp hhd)
    | some c =>
      cases hgl : (trimJS p).getLast? with
      | none =>
        exfalso
        exact htp (List.getLast?_eq_none_iff.mp hgl)
      | some d =>
        exact suffix_trimJS hhd (trimJS_head_nonWS hhd) hgl (trimJS_getLast_nonWS hgl) hsuf

/-- C7 witness: at a concrete document whose blocks are two plain paragraphs
followed by a plain paragraph and an image block, both grouping behaviors
hold. -/
theorem C7_grouping_witness :
    (∃ u ∈ wrapResultList (str "One.\n\nTwo.") (str "W") (str "H"), ∃ inner,
      u = wrapUnit (str "W") inner ∧
      (trimJS (str "One.") ++ '\n' :: '\n' :: trimJS (str "Two.")) <:+: inner) ∧
    (∃ E rest inner, wrapResultList (str "Para.\n\n![a](x.png)") (str "W") (str "H") =
      E ++ wrapUnit (str "W") inner :: trimJS (str "![a](x.png)") :: rest ∧
      trimJS (str "Para.") <:+ inner) :=
  ⟨C7_grouping.1 (str "One.\n\nTwo.") (str "W") (str "H") [] [] (str "One.") (str "Two.")
      (by decide) (by decide) (by decide) (by decide) (by decide) (by decide) (by decide),
    C7_grouping.2 (str "Para.\n\n![a](x.png)") (str "W") (str "H") [] []
      (str "Para.") (str "![a](x.png)")
      (by decide) (by decide) (by decide) (by decide) (by decide) (by decide)⟩

/-! ## Image-rewrite machinery -/

theorem substDollars_no_dollar {r : List Char} (m b a : List Char) (h : '$' ∉ r) :
    substDollars r m b a = r := by
  induction r with
  | nil => rfl
  | cons c rest ih =>
    have hc : ¬c = '$' := fun hx => h (hx ▸ List.mem_cons_self c rest)
    cases rest with
    | nil => rfl
    | cons d rest2 =>
      rw [substDollars, if_neg hc, ih fun hx => h (List.mem_cons_of_mem _ hx)]

theorem isPrefixOf_cons_ne {p c : Char} {ps cs : List Char} (h : ¬p = c) :
    (p :: ps).isPrefixOf (c :: cs) = false := by
  simp [List.isPrefixOf, h]

theorem takeWhile_stop (p : Char → Bool) (xs : List Char) (y : Char) (z : List Char)
    (hall : ∀ x ∈ xs, p x = true) (hy : p y = false) :
    (xs ++ y :: z).takeWhile p = xs ∧ (xs ++ y :: z).dropWhile p = y :: z := by
  induction xs with
  | nil =>
    rw [List.nil_append]
    constructor
    · rw [List.takeWhile_cons, hy]
      simp
    · rw [List.dropWhile_cons, hy]
      simp
  | cons c xs' ih =>
    have hc := hall c (List.mem_cons_self _ _)
    obtain ⟨h1, h2⟩ := ih fun x hx => hall x (List.mem_cons_of_mem _ hx)
    constructor
    · rw [List.cons_append, List.takeWhile_cons, hc]
      simp [h1]
    · rw [List.cons_append, List.dropWhile_cons, hc]
      simp [h2]

theorem imgMatch?_cons_ne {c : Char} {rest : List Char} (h : ¬c = '!') :
    imgMatch? (c :: rest) = none := by
  cases rest with
  | nil => rfl
  | cons c2 r2 =>
    rw [imgMatch?]
    rw [if_neg (by simp [h])]

theorem imgMatch?_rem_lt {l m p1 rem : List Char} (h : imgMatch? l = some (m, p1, rem)) :
    rem.length < l.length := by
  rcases l with _ | ⟨c1, _ | ⟨c2, rest⟩⟩
  · cases h
  · cases h
  · simp only [imgMatch?] at h
    split at h
    case isFalse => cases h
    case isTrue hb =>
      split at h
      case h_2 => cases h
      case h_1 b1 b2 tail heq =>
        split at h
        case isFalse => cases h
        case isTrue hb2 =>
          split at h
          case isFalse => cases h
          case isTrue hpref =>
            split at h
            case isTrue => cases h
            case isFalse hrun =>
              split at h
              case h_2 => cases h
              case h_1 p remx heq2 =>
                split at h
                case isFalse => cases h
                case isTrue hp =>
                  simp only [Option.some_inj, Prod.mk.injEq] at h
                  obtain ⟨-, -, hrem⟩ := h
                  subst hrem
                  have e1 := congrArg List.length heq
                  have e2 := congrArg List.length heq2
                  simp only [List.length_drop, List.length_cons] at e1 e2
                  simp only [List.length_cons]
                  omega

theorem imgGoF_fuel_irrel (pre : List Char) : ∀ (f1 f2 : Nat) (l : List Char),
    l.length < f1 → l.length < f2 → imgGoF pre f1 l = imgGoF pre f2 l := by
  intro f1
  induction f1 with
  | zero => intro f2 l h1 h2; omega
  | succ f1 ih =>
    intro f2 l h1 h2
    cases f2 with
    | zero => omega
    | succ f2 =>
      cases l with
      | nil => rfl
      | cons c rest =>
        simp only [imgGoF]
        simp only [List.length_cons] at h1 h2
        cases hm : imgMatch? (c :: rest) with
        | some t =>
          obtain ⟨m, p1, rem⟩ := t
          have hlt := imgMatch?_rem_lt hm
          simp only [List.length_cons] at hlt
          show jsReplaceStr m p1 (pre ++ p1) ++ imgGoF pre f1 rem =
            jsReplaceStr m p1 (pre ++ p1) ++ imgGoF pre f2 rem
          rw [ih f2 rem (by omega) (by omega)]
        | none =>
          show c :: imgGoF pre f1 rest = c :: imgGoF pre f2 rest
          rw [ih f2 rest (by omega) (by omega)]

theorem imgGoF_skip (pre : List Char) : ∀ (a rest : List Char) (fuel : Nat),
    '!' ∉ a → a.length + rest.length < fuel →
    imgGoF pre fuel (a ++ rest) = a ++ imgGoF pre (fuel - a.length) rest := by
  intro a
  induction a with
  | nil =>
    intro rest fuel h hf
    simp
  | cons c a' ih =>
    intro rest fuel h hf
    cases fuel with
    | zero => simp at hf
    | succ fuel =>
      rw [List.cons_append]
      simp only [imgGoF]
      rw [imgMatch?_cons_ne fun hc => h (hc ▸ List.mem_cons_self c a')]
      simp only [List.length_cons] at hf
      show c :: imgGoF pre fuel (a' ++ rest) =
        (c :: a') ++ imgGoF pre (fuel + 1 - (c :: a').length) rest
      rw [ih rest fuel (fun hx => h (List.mem_cons_of_mem _ hx)) (by omega)]
      simp only [List.length_cons, List.cons_append]
      have harith : fuel + 1 - (a'.length + 1) = fuel - a'.length := by omega
      rw [harith]

theorem findSub_spec (pat : List Char) : ∀ (preX suf : List Char),
    (∀ j, j < preX.length → pat.isPrefixOf ((preX ++ suf).drop j) = false) →
    pat.isPrefixOf suf = true →
    findSub pat (preX ++ suf) = some preX.length := by
  intro preX
  induction preX with
  | nil =>
    intro suf hno hyes
    rw [List.nil_append]
    cases suf with
    | nil =>
      rw [findSub, hyes]
      simp
    | cons c rest =>
      rw [findSub, hyes]
      simp
  | cons c preX' ih =>
    intro suf hno hyes
    rw [List.cons_append, findSub]
    have h0 := hno 0 (by simp)
    simp only [List.cons_append, List.drop_zero] at h0
    rw [h0]
    simp only [Bool.false_eq_true, if_false]
    rw [ih suf (fun j hj => by
      have h1 := hno (j + 1) (by simp only [List.length_cons]; omega)
      simpa [List.cons_append, List.drop_succ_cons] using h1) hyes]
    simp

theorem isPrefixOf_append_cons_false (pat X : List Char) (y : Char) (z : List Char)
    (hX : pat.isPrefixOf X = false) (hy : y ∉ pat) :
    pat.isPrefixOf (X ++ y :: z) = false := by
  apply Bool.eq_false_iff.mpr
  intro hc
  rw [List.isPrefixOf_iff_prefix] at hc
  by_cases hlen : pat.length ≤ X.length
  · have hpx : pat <+: X := by
      have h1 : pat = (X ++ y :: z).take pat.length := by
        rcases hc with ⟨t, ht⟩
        rw [← ht, List.take_left' rfl]
      rw [h1, List.take_append_of_le_length hlen]
      exact List.take_prefix _ _
    have htrue := List.isPrefixOf_iff_prefix.mpr hpx
    rw [hX] at htrue
    cases htrue
  · push_neg at hlen
    have hXp : X <+: pat :=
      List.prefix_of_prefix_length_le (List.prefix_append _ _) hc (by omega)
    rcases hXp with ⟨k, hk⟩
    rw [← hk] at hc
    rw [List.prefix_append_right_inj] at hc
    cases k with
    | nil =>
      rw [List.append_nil] at hk
      rw [← hk] at hlen
      exact absurd hlen (lt_irrefl _)
    | cons k0 k' =>
      rw [List.cons_prefix_cons] at hc
      apply hy
      rw [← hk, hc.1]
      exact List.mem_append_right _ (List.mem_cons_self _ _)

theorem no_img_core : ∀ (alt : List Char), containsSub imagesLit alt = false →
    ∀ (t2 : List Char) (j : Nat), j < alt.length + 2 →
      imagesLit.isPrefixOf ((alt ++ ']' :: '(' :: t2).drop j) = false := by
  intro alt
  induction alt with
  | nil =>
    intro _ t2 j hj
    simp only [List.length_nil] at hj
    match j with
    | 0 =>
      rw [List.nil_append, List.drop_zero,
        show imagesLit = 'i' :: str "mages/" from rfl]
      exact isPrefixOf_cons_ne (by decide)
    | 1 =>
      rw [List.nil_append, List.drop_succ_cons, List.drop_zero,
        show imagesLit = 'i' :: str "mages/" from rfl]
      exact isPrefixOf_cons_ne (by decide)
    | j' + 2 => omega
  | cons c alt' ih =>
    intro hsub t2 j hj
    rw [containsSub, Bool.or_eq_false_iff] at hsub
    cases j with
    | zero =>
      rw [List.drop_zero, List.cons_append]
      exact isPrefixOf_append_cons_false imagesLit (c :: alt') ']' ('(' :: t2)
        hsub.1 (by decide)
    | succ j' =>
      rw [List.cons_append, List.drop_succ_cons]
      exact ih hsub.2 t2 j' (by simp only [List.length_cons] at hj; omega)

theorem no_img_scan (alt : List Char) (hsub : containsSub imagesLit alt = false)
    (t2 : List Char) : ∀ (j : Nat), j < alt.length + 4 →
    imagesLit.isPrefixOf (('!' :: '[' :: (alt ++ ']' :: '(' :: t2)).drop j) = false := by
  intro j hj
  match j with
  | 0 =>
    rw [List.drop_zero, show imagesLit = 'i' :: str "mages/" from rfl]
    exact isPrefixOf_cons_ne (by decide)
  | 1 =>
    rw [show ('!' :: '[' :: (alt ++ ']' :: '(' :: t2)).drop 1 =
        '[' :: (alt ++ ']' :: '(' :: t2) from rfl,
      show imagesLit = 'i' :: str "mages/" from rfl]
    exact isPrefixOf_cons_ne (by decide)
  | j' + 2 =>
    rw [show ('!' :: '[' :: (alt ++ ']' :: '(' :: t2)).drop (j' + 2) =
        (alt ++ ']' :: '(' :: t2).drop j' from rfl]
    exact no_img_core alt hsub t2 j' (by omega)

theorem jsReplaceStr_eq_of_findSub {s pat repl : List Char} {i : Nat}
    (h : findSub pat s = some i) :
    jsReplaceStr s pat repl =
      s.take i ++ substDollars repl pat (s.take i) (s.drop (i + pat.length)) ++
        s.drop (i + pat.length) := by
  rw [jsReplaceStr, h]

theorem jsReplaceStr_image (pre alt r : List Char)
    (hsub : containsSub imagesLit alt = false) (hdpre : '$' ∉ pre) (hdr : '$' ∉ r) :
    jsReplaceStr ('!' :: '[' :: (alt ++ ']' :: '(' :: (imagesLit ++ (r ++ [')']))))
        (imagesLit ++ r) (pre ++ (imagesLit ++ r)) =
      '!' :: '[' :: (alt ++ ']' :: '(' :: (pre ++ (imagesLit ++ (r ++ [')'])))) := by
  have hm : '!' :: '[' :: (alt ++ ']' :: '(' :: (imagesLit ++ (r ++ [')']))) =
      ('!' :: '[' :: (alt ++ [']', '('])) ++ ((imagesLit ++ r) ++ [')']) := by
    simp
  have hlenpre : ('!' :: '[' :: (alt ++ [']', '('])).length = alt.length + 4 := by
    simp
  have hfind : findSub (imagesLit ++ r)
      ('!' :: '[' :: (alt ++ ']' :: '(' :: (imagesLit ++ (r ++ [')'])))) =
      some (alt.length + 4) := by
    rw [hm, ← hlenpre]
    apply findSub_spec
    · intro j hj
      apply Bool.eq_false_iff.mpr
      intro hcontra
      rw [List.isPrefixOf_iff_prefix] at hcontra
      have hil : imagesLit <+:
          ((('!' :: '[' :: (alt ++ [']', '('])) ++ ((imagesLit ++ r) ++ [')'])).drop j) :=
        (List.prefix_append imagesLit r).trans hcontra
      have hfalse := no_img_scan alt hsub ((imagesLit ++ (r ++ [')']))) j
        (by rw [hlenpre] at hj; omega)
      have hshape : '!' :: '[' :: (alt ++ ']' :: '(' :: (imagesLit ++ (r ++ [')']))) =
          ('!' :: '[' :: (alt ++ [']', '('])) ++ ((imagesLit ++ r) ++ [')']) := hm
      rw [hshape] at hfalse
      have htrue := List.isPrefixOf_iff_prefix.mpr hil
      rw [hfalse] at htrue
      cases htrue
    · rw [List.isPrefixOf_iff_prefix]
      exact List.prefix_append _ _
  have htake : ('!' :: '[' :: (alt ++ ']' :: '(' :: (imagesLit ++ (r ++ [')'])))).take
      (alt.length + 4) = '!' :: '[' :: (alt ++ [']', '(']) := by
    rw [hm, ← hlenpre, List.take_left]
  have hdrop : ('!' :: '[' :: (alt ++ ']' :: '(' :: (imagesLit ++ (r ++ [')'])))).drop
      (alt.length + 4 + (imagesLit ++ r).length) = [')'] := by
    rw [hm, show ('!' :: '[' :: (alt ++ [']', '('])) ++ ((imagesLit ++ r) ++ [')']) =
        (('!' :: '[' :: (alt ++ [']', '('])) ++ (imagesLit ++ r)) ++ [')'] by simp,
      List.drop_left']
    rw [List.length_append, hlenpre]
  rw [jsReplaceStr_eq_of_findSub hfind, htake, hdrop]
  rw [substDollars_no_dollar _ _ _ (by
    intro hx
    rcases List.mem_append.mp hx with hx | hx
    · exact hdpre hx
    · rcases List.mem_append.mp hx with hx | hx
      · exact absurd hx (by decide)
      · exact hdr hx)]
  simp

theorem imgMatch?_wellformed (alt r b : List Char) (ha : ']' ∉ alt) (hr : ')' ∉ r)
    (hrne : r ≠ []) :
    imgMatch? ('!' :: '[' :: (alt ++ ']' :: '(' :: (imagesLit ++ (r ++ ')' :: b)))) =
      some ('!' :: '[' :: (alt ++ ']' :: '(' :: (imagesLit ++ (r ++ [')']))),
        imagesLit ++ r, b) := by
  have htw1 := (takeWhile_stop (fun c => decide (c ≠ ']')) alt ']'
    ('(' :: (imagesLit ++ (r ++ ')' :: b)))
    (fun x hx => by simp; exact fun hc => ha (hc ▸ hx)) (by decide)).1
  have htw3 := (takeWhile_stop (fun c => decide (c ≠ ')')) r ')' b
    (fun x hx => by simp; exact fun hc => hr (hc ▸ hx)) (by decide)).1
  have hdropA : (alt ++ ']' :: '(' :: (imagesLit ++ (r ++ ')' :: b))).drop
      ((alt ++ ']' :: '(' :: (imagesLit ++ (r ++ ')' :: b))).takeWhile
        (fun c => decide (c ≠ ']'))).length =
      ']' :: '(' :: (imagesLit ++ (r ++ ')' :: b)) := by
    rw [htw1, List.drop_left]
  have h7 : imagesLit.length = 7 := by rfl
  have hdrop7 : (imagesLit ++ (r ++ ')' :: b)).drop 7 = r ++ ')' :: b :=
    List.drop_left' h7
  have hdropR : (r ++ ')' :: b).drop r.length = ')' :: b := List.drop_left _ _
  rw [imgMatch?]
  split
  case isFalse hcond => exact absurd (by decide) hcond
  case isTrue =>
    split
    case h_2 hne => exact absurd hdropA (hne ']' '(' _)
    case h_1 b1 b2 tail heq =>
      rw [hdropA] at heq
      injection heq with e1 heq
      injection heq with e2 heq
      subst e1
      subst e2
      subst heq
      split
      case isFalse hcond => exact absurd (by decide) hcond
      case isTrue =>
        split
        case isFalse hcond =>
          exact absurd (show imagesLit.isPrefixOf (imagesLit ++ (r ++ ')' :: b)) = true from by
            rw [List.isPrefixOf_iff_prefix]
            exact List.prefix_append _ _) hcond
        case isTrue =>
          rw [hdrop7, htw3]
          split
          case isTrue hre => exact absurd hre hrne
          case isFalse =>
            split
            case h_2 hne =>
              rw [hdropR] at hne
              cases hne
            case h_1 p rem heq2 =>
              rw [hdropR] at heq2
              injection heq2 with e3 e4
              subst e3
              subst e4
              rw [if_pos rfl, htw1]
              simp [List.append_assoc]

theorem imgMatch?_not_images (alt p b : List Char) (ha : ']' ∉ alt)
    (hni : imagesLit.isPrefixOf p = false) :
    imgMatch? ('!' :: '[' :: (alt ++ ']' :: '(' :: (p ++ ')' :: b))) = none := by
  have htw1 := (takeWhile_stop (fun c => decide (c ≠ ']')) alt ']' ('(' :: (p ++ ')' :: b))
    (fun x hx => by simp; exact fun hc => ha (hc ▸ hx)) (by decide)).1
  have hdropA : (alt ++ ']' :: '(' :: (p ++ ')' :: b)).drop
      ((alt ++ ']' :: '(' :: (p ++ ')' :: b)).takeWhile
        (fun c => decide (c ≠ ']'))).length = ']' :: '(' :: (p ++ ')' :: b) := by
    rw [htw1, List.drop_left]
  have hpref : imagesLit.isPrefixOf (p ++ ')' :: b) = false :=
    isPrefixOf_append_cons_false imagesLit p ')' b hni (by decide)
  rw [imgMatch?]
  split
  case isFalse => rfl
  case isTrue =>
    split
    case h_2 => rfl
    case h_1 b1 b2 tail heq =>
      rw [hdropA] at heq
      injection heq with e1 heq
      injection heq with e2 heq
      subst e1
      subst e2
      subst heq
      split
      case isFalse => rfl
      case isTrue =>
        rw [if_neg (by simp [hpref])]

theorem imgGoF_step_some {pre l m p1 rem : List Char} {fuel : Nat}
    (hl : ∃ c t, l = c :: t) (h : imgMatch? l = some (m, p1, rem)) :
    imgGoF pre (fuel + 1) l = jsReplaceStr m p1 (pre ++ p1) ++ imgGoF pre fuel rem := by
  obtain ⟨c, t, rfl⟩ := hl
  rw [imgGoF, h]

theorem imgGoF_step_none {pre : List Char} {c : Char} {t : List Char} {fuel : Nat}
    (h : imgMatch? (c :: t) = none) :
    imgGoF pre (fuel + 1) (c :: t) = c :: imgGoF pre fuel t := by
  rw [imgGoF, h]

/-- C9 amended: the image rewrite, for a document consisting of a
`!`-free segment, a single well-formed image link and a remainder
(processed recursively).  First part: when the path starts with `images/`,
only the path is rewritten to `/work/proj/` + path — provided the alt text
does not contain the string `images/` (else the inner
`match.replace(p1, ...)` hits the alt text first, see the counterexample)
and the path contains no `$` (else `$`-substitution corrupts the
replacement).  Second part: an occurrence whose path does not start with
`images/` is left byte-identical. -/
theorem C9_image_rewrite_amended :
    (∀ a alt r b : List Char, '!' ∉ a → ']' ∉ alt →
      containsSub imagesLit alt = false → ')' ∉ r → r ≠ [] → '$' ∉ r →
      imageStage (str "/work/proj/")
          (a ++ '!' :: '[' :: (alt ++ ']' :: '(' :: (imagesLit ++ (r ++ ')' :: b)))) =
        a ++ '!' :: '[' :: (alt ++ ']' :: '(' :: (str "/work/proj/" ++
          (imagesLit ++ (r ++ ')' :: imageStage (str "/work/proj/") b))))) ∧
    (∀ a alt p b : List Char, '!' ∉ a → ']' ∉ alt → '!' ∉ alt → ')' ∉ p → '!' ∉ p →
      imagesLit.isPrefixOf p = false →
      imageStage (str "/work/proj/")
          (a ++ '!' :: '[' :: (alt ++ ']' :: '(' :: (p ++ ')' :: b))) =
        a ++ '!' :: '[' :: (alt ++ ']' :: '(' :: (p ++ ')' ::
          imageStage (str "/work/proj/") b))) := by
  have h7 : imagesLit.length = 7 := by rfl
  constructor
  · intro a alt r b hA hAlt hSub hR hRne hDr
    rw [imageStage]
    rw [imgGoF_skip (str "/work/proj/") a _ _ hA
      (by simp only [List.length_append]; omega)]
    have harith : (a ++ '!' :: '[' :: (alt ++ ']' :: '(' ::
        (imagesLit ++ (r ++ ')' :: b)))).length + 1 - a.length =
        ('!' :: '[' :: (alt ++ ']' :: '(' :: (imagesLit ++ (r ++ ')' :: b)))).length + 1 := by
      simp only [List.length_append]
      omega
    rw [harith]
    rw [imgGoF_step_some ⟨_, _, rfl⟩ (imgMatch?_wellformed alt r b hAlt hR hRne)]
    rw [jsReplaceStr_image (str "/work/proj/") alt r hSub (by decide) hDr]
    rw [imgGoF_fuel_irrel (str "/work/proj/")
      ('!' :: '[' :: (alt ++ ']' :: '(' :: (imagesLit ++ (r ++ ')' :: b)))).length
      (b.length + 1) b
      (by simp only [List.length_append, List.length_cons, h7]; omega) (by omega)]
    rw [← imageStage]
    simp [List.append_assoc]
  · intro a alt p b hA hAlt hBangAlt hP hBangP hNi
    rw [imageStage]
    rw [imgGoF_skip (str "/work/proj/") a _ _ hA
      (by simp only [List.length_append]; omega)]
    have harith : (a ++ '!' :: '[' :: (alt ++ ']' :: '(' :: (p ++ ')' :: b))).length + 1 -
        a.length = ('!' :: '[' :: (alt ++ ']' :: '(' :: (p ++ ')' :: b))).length + 1 := by
      simp only [List.length_append]
      omega
    rw [harith]
    rw [imgGoF_step_none (imgMatch?_not_images alt p b hAlt hNi)]
    have hshape : '[' :: (alt ++ ']' :: '(' :: (p ++ ')' :: b)) =
        ('[' :: (alt ++ ']' :: '(' :: (p ++ [')']))) ++ b := by
      simp
    rw [hshape]
    rw [imgGoF_skip (str "/work/proj/") ('[' :: (alt ++ ']' :: '(' :: (p ++ [')']))) b _
      (by
        intro hx
        rcases List.mem_cons.mp hx with hx | hx
        · cases hx
        · rcases List.mem_append.mp hx with hx | hx
          · exact hBangAlt hx
          · rcases List.mem_cons.mp hx with hx | hx
            · cases hx
            · rcases List.mem_cons.mp hx with hx | hx
              · cases hx
              · rcases List.mem_append.mp hx with hx | hx
                · exact hBangP hx
                · rcases List.mem_cons.mp hx with hx | hx
                  · cases hx
                  · cases hx)
      (by simp only [List.length_append, List.length_cons]; omega)]
    rw [imgGoF_fuel_irrel (str "/work/proj/") _ (b.length + 1) b
      (by simp only [List.length_append, List.length_cons]; omega) (by omega)]
    rw [← imageStage]
    simp [List.append_assoc]

/-- C9 witness: both parts of the amended claim at concrete documents — an
`images/` link whose path is rewritten with alt text preserved, and a
non-`images/` link left unchanged. -/
theorem C9_image_rewrite_amended_witness :
    imageStage (str "/work/proj/")
        (str "see " ++ '!' :: '[' :: (str "cover" ++ ']' :: '(' ::
          (imagesLit ++ (str "a.png" ++ ')' :: str " done")))) =
      str "see " ++ '!' :: '[' :: (str "cover" ++ ']' :: '(' :: (str "/work/proj/" ++
        (imagesLit ++ (str "a.png" ++ ')' ::
          imageStage (str "/work/proj/") (str " done"))))) ∧
    imageStage (str "/work/proj/")
        (str "x " ++ '!' :: '[' :: (str "alt" ++ ']' :: '(' ::
          (str "photos/b.png" ++ ')' :: str " end"))) =
      str "x " ++ '!' :: '[' :: (str "alt" ++ ']' :: '(' :: (str "photos/b.png" ++ ')' ::
        imageStage (str "/work/proj/") (str " end"))) :=
  ⟨C9_image_rewrite_amended.1 (str "see ") (str "cover") (str "a.png") (str " done")
      (by decide) (by decide) (by decide) (by decide) (by decide) (by decide),
    C9_image_rewrite_amended.2 (str "x ") (str "alt") (str "photos/b.png") (str " end")
      (by decide) (by decide) (by decide) (by decide) (by decide) (by decide)⟩

/-- C8 witness: the hypotheses and conclusion at a concrete unterminated
document. -/
theorem C8_unterminated_fence_witness :
    (str "---").isPrefixOf (str "---\ntitle: x\nbody") = true ∧
    containsSub (str "\n---") (str "---\ntitle: x\nbody") = false ∧
    (fmExtract (str "---\ntitle: x\nbody") = none ∧
      frontMatterStage (str "/work/proj/") (str "---\ntitle: x\nbody") =
        str "---\n\ncover_url: \n---\n" ++ str "---\ntitle: x\nbody") :=
  ⟨by decide, by decide,
    C8_unterminated_fence (str "/work/proj/") (str "---\ntitle: x\nbody")
      (by decide) (by decide)⟩

/-! ## C2: the quoted `cover_url` replacement and its match positions -/

theorem findQuote_spec : ∀ (tail : List Char) (j : Nat), findQuote tail = some j →
    ∃ q rest2, tail = q ++ '"' :: rest2 ∧ q.length = j ∧
      ∀ x ∈ q, isLineTerm x = false ∧ x ≠ '"' := by
  intro tail
  induction tail with
  | nil => intro j h; cases h
  | cons c rest ih =>
    intro j h
    rw [findQuote] at h
    by_cases hc : c = '"'
    · rw [if_pos hc] at h
      cases h
      subst hc
      exact ⟨[], rest, rfl, rfl, by simp⟩
    · rw [if_neg hc] at h
      by_cases hlt : isLineTerm c = true
      · rw [if_pos hlt] at h
        cases h
      · rw [if_neg hlt] at h
        rcases Option.map_eq_some'.mp h with ⟨j', hj', rfl⟩
        obtain ⟨q, rest2, heq, hlen, hprops⟩ := ih j' hj'
        refine ⟨c :: q, rest2, by simp [heq], by simp [hlen], ?_⟩
        intro x hx
        rcases List.mem_cons.mp hx with rfl | hx
        · exact ⟨by simpa using hlt, hc⟩
        · exact hprops x hx

theorem quotedMatchLen_structure {l : List Char} {n : Nat}
    (h : quotedMatchLen l = some n) :
    ∃ w q rest2, l = coverKey ++ (w ++ '"' :: (q ++ '"' :: rest2)) ∧
      n = 10 + w.length + 1 + q.length + 1 ∧
      (∀ x ∈ w, jsWS x = true) ∧ ∀ x ∈ q, isLineTerm x = false ∧ x ≠ '"' := by
  rw [quotedMatchLen] at h
  split at h
  case isTrue hpre =>
    split at h
    case h_1 => cases h
    case h_2 c tail heq =>
      split at h
      case isTrue hc =>
        subst hc
        cases hfq : findQuote tail with
        | none => rw [hfq] at h; cases h
        | some j =>
          rw [hfq] at h
          cases h
          obtain ⟨q, rest2, htail, hlen, hqprops⟩ := findQuote_spec tail j hfq
          refine ⟨(l.drop 10).takeWhile jsWS, q, rest2, ?_, by omega, ?_, hqprops⟩
          · rcases List.isPrefixOf_iff_prefix.mp hpre with ⟨t, ht⟩
            have hT : l.drop 10 = t := by
              rw [← ht]
              exact List.drop_left' (show coverKey.length = 10 from rfl)
            calc l = coverKey ++ t := ht.symm
              _ = coverKey ++ l.drop 10 := by rw [hT]
              _ = coverKey ++ ((l.drop 10).takeWhile jsWS ++ (l.drop 10).dropWhile jsWS) := by
                  rw [List.takeWhile_append_dropWhile]
              _ = coverKey ++ ((l.drop 10).takeWhile jsWS ++ ('"' :: tail)) := by rw [heq]
              _ = coverKey ++ ((l.drop 10).takeWhile jsWS ++ ('"' :: (q ++ '"' :: rest2))) := by
                  rw [htail]
          · intro x hx
            exact List.mem_takeWhile_imp hx
      case isFalse => cases h
  case isFalse => cases h

theorem findQuotedMatch_spec : ∀ (fm : List Char) (i n : Nat),
    findQuotedMatch fm = some (i, n) → quotedMatchLen (fm.drop i) = some n := by
  intro fm
  induction fm with
  | nil => intro i n h; cases h
  | cons c rest ih =>
    intro i n h
    rw [findQuotedMatch] at h
    cases hq : quotedMatchLen (c :: rest) with
    | some n0 =>
      rw [hq] at h
      simp only [Option.some_inj, Prod.mk.injEq] at h
      obtain ⟨rfl, rfl⟩ := h
      simpa using hq
    | none =>
      rw [hq] at h
      rcases Option.map_eq_some'.mp h with ⟨⟨i', n'⟩, hfind, heq⟩
      simp only [Prod.mk.injEq] at heq
      obtain ⟨rfl, rfl⟩ := heq
      rw [List.drop_succ_cons]
      exact ih i' n' hfind

theorem quotedMatchLen_abs_value {L B : List Char}
    (hL : coverKey.isPrefixOf L = true)
    (hval : (str "/").isPrefixOf (trimJS (L.drop 10)) = true ∨
      (str "http").isPrefixOf (trimJS (L.drop 10)) = true) :
    quotedMatchLen (L ++ B) = none := by
  have hhd : ∃ c0 Z, (L.drop 10).dropWhile jsWS = c0 :: Z ∧ (c0 = '/' ∨ c0 = 'h') := by
    rcases trimJS_prefix_dropWhile (L.drop 10) with ⟨u, hu⟩
    rcases hval with hv | hv
    · rcases List.isPrefixOf_iff_prefix.mp hv with ⟨t, ht⟩
      refine ⟨'/', t ++ u, ?_, Or.inl rfl⟩
      rw [← hu, ← ht]
      simp [str]
    · rcases List.isPrefixOf_iff_prefix.mp hv with ⟨t, ht⟩
      refine ⟨'h', (str "ttp" ++ t) ++ u, ?_, Or.inr rfl⟩
      rw [← hu, ← ht]
      simp [str]
  obtain ⟨c0, Z, hsc, hc0⟩ := hhd
  have h10 : (10 : Nat) ≤ L.length := by
    have h := List.IsPrefix.length_le (List.isPrefixOf_iff_prefix.mp hL)
    rw [show coverKey.length = 10 from rfl] at h
    exact h
  have hdropLB : (L ++ B).drop 10 = L.drop 10 ++ B :=
    List.drop_append_of_le_length h10
  have hscLB : ((L ++ B).drop 10).dropWhile jsWS = c0 :: (Z ++ B) := by
    rw [hdropLB, List.dropWhile_append]
    split
    case isTrue hemp =>
      exfalso
      rw [hsc] at hemp
      simp at hemp
    case isFalse =>
      rw [hsc]
      simp
  have hpreLB : coverKey.isPrefixOf (L ++ B) = true := by
    rw [List.isPrefixOf_iff_prefix]
    exact (List.isPrefixOf_iff_prefix.mp hL).trans (List.prefix_append _ _)
  rw [quotedMatchLen, if_pos hpreLB]
  split
  case h_1 hemp =>
    rfl
  case h_2 c tail heq =>
    rw [hscLB] at heq
    injection heq with e1 e2
    subst e1
    rw [if_neg]
    rcases hc0 with rfl | rfl <;> decide
theorem quoted_no_nl_y {w q rest2 D' X : List Char} {y : Char}
    (hw : ∀ x ∈ w, jsWS x = true)
    (hq : ∀ x ∈ q, isLineTerm x = false ∧ x ≠ '"')
    (hy1 : jsWS y = false) (hy2 : y ≠ '"')
    (heq : D' ++ '\n' :: y :: X = coverKey ++ (w ++ '"' :: (q ++ '"' :: rest2)))
    (hlen : D'.length + 1 < 10 + w.length + 1 + q.length + 1) : False := by
  have hnlcover : '\n' ∉ coverKey := by decide
  rcases List.append_eq_append_iff.mp heq with ⟨e, he1, he2⟩ | ⟨e, he1, he2⟩
  · cases e with
    | nil =>
      rw [List.nil_append] at he2
      cases w with
      | nil =>
        rw [List.nil_append] at he2
        injection he2 with e1 _
        exact absurd e1 (by decide)
      | cons w0 w' =>
        rw [List.cons_append] at he2
        injection he2 with e1 he2
        cases w' with
        | nil =>
          rw [List.nil_append] at he2
          injection he2 with e2 _
          exact hy2 e2
        | cons w1 w'' =>
          rw [List.cons_append] at he2
          injection he2 with e2 _
          have hws := hw w1 (by simp)
          rw [← e2, hy1] at hws
          cases hws
    | cons e0 e' =>
      rw [List.cons_append] at he2
      injection he2 with e1 _
      apply hnlcover
      rw [he1, ← e1]
      exact List.mem_append_right _ (List.mem_cons_self _ _)
  · have hlenD : D'.length = 10 + e.length := by
      rw [he1, List.length_append, show coverKey.length = 10 from rfl]
    rcases List.append_eq_append_iff.mp he2.symm with ⟨f, hf1, hf2⟩ | ⟨f, hf1, hf2⟩
    · cases f with
      | nil =>
        rw [List.nil_append] at hf2
        injection hf2 with e1 _
        exact absurd e1 (by decide)
      | cons f0 f' =>
        rw [List.cons_append] at hf2
        injection hf2 with e1 hf2
        cases f' with
        | nil =>
          rw [List.nil_append] at hf2
          injection hf2 with e2 _
          exact hy2 e2
        | cons f1 f'' =>
          rw [List.cons_append] at hf2
          injection hf2 with e2 _
          have hmem : f1 ∈ w := by
            rw [hf1]
            exact List.mem_append_right _ (by simp)
          have hws := hw f1 hmem
          rw [← e2, hy1] at hws
          cases hws
    · cases f with
      | nil =>
        rw [List.nil_append] at hf2
        injection hf2 with e1 _
        exact absurd e1 (by decide)
      | cons f0 f' =>
        rw [List.cons_append] at hf2
        injection hf2 with e1 hf2
        rcases List.append_eq_append_iff.mp hf2 with ⟨g, hg1, hg2⟩ | ⟨g, hg1, hg2⟩
        · cases g with
          | nil =>
            rw [List.nil_append] at hg2
            injection hg2 with e2 _
            exact absurd e2 (by decide)
          | cons g0 g' =>
            rw [List.cons_append] at hg2
            injection hg2 with e2 hg2
            have l1 : e.length = w.length + 1 + f'.length := by
              rw [hf1]
              simp
              omega
            have l2 : f'.length = q.length + 1 + g'.length := by
              rw [hg1]
              simp
              omega
            omega
        · cases g with
          | nil =>
            rw [List.nil_append] at hg2
            injection hg2 with e2 _
            exact absurd e2 (by decide)
          | cons g0 g' =>
            rw [List.cons_append] at hg2
            injection hg2 with e2 _
            have hmem : g0 ∈ q := by
              rw [hg1]
              exact List.mem_append_right _ (by simp)
            have hlt := (hq g0 hmem).1
            rw [← e2] at hlt
            exact absurd hlt (by decide)
theorem replaceQuoted_line (repl A L B : List Char)
    (hA : A = [] ∨ A.getLast? = some '\n') (hB : B = [] ∨ B.head? = some '\n')
    (hL10 : coverKey.isPrefixOf L = true)
    (hval : (str "/").isPrefixOf (trimJS (L.drop 10)) = true ∨
      (str "http").isPrefixOf (trimJS (L.drop 10)) = true)
    (honce : ∀ j, 0 < j → coverKey.isPrefixOf (L.drop j) = false) :
    ∃ A' B', jsReplaceQuoted (A ++ L ++ B) repl = A' ++ L ++ B' ∧
      (A' = [] ∨ A'.getLast? = some '\n') ∧ (B' = [] ∨ B'.head? = some '\n') := by
  cases hfq : findQuotedMatch (A ++ L ++ B) with
  | none =>
    refine ⟨A, B, ?_, hA, hB⟩
    rw [jsReplaceQuoted, hfq]
  | some pr =>
    obtain ⟨i, n⟩ := pr
    have hq := findQuotedMatch_spec _ i n hfq
    obtain ⟨w, q, rest2, hstruct, hn, hw, hqprops⟩ := quotedMatchLen_structure hq
    have hlenL : 10 ≤ L.length := by
      have h := List.IsPrefix.length_le (List.isPrefixOf_iff_prefix.mp hL10)
      rw [show coverKey.length = 10 from rfl] at h
      exact h
    have hifm : i < (A ++ L ++ B).length := by
      by_contra hge
      push_neg at hge
      rw [List.drop_eq_nil_of_le hge] at hstruct
      have hl := congrArg List.length hstruct
      rw [List.length_nil, List.length_append, show coverKey.length = 10 from rfl] at hl
      omega
    have hstep : jsReplaceQuoted (A ++ L ++ B) repl =
        (A ++ L ++ B).take i ++
          substDollars repl (((A ++ L ++ B).drop i).take n) ((A ++ L ++ B).take i)
            ((A ++ L ++ B).drop (i + n)) ++ (A ++ L ++ B).drop (i + n) := by
      rw [jsReplaceQuoted, hfq]
    rcases Nat.lt_or_ge i A.length with hi | hi
    · rcases Nat.lt_or_ge A.length (i + n) with hcross | hle
      · -- the match would straddle the newline just before the cover line
        exfalso
        have hAne : A ≠ [] := by
          intro h0
          rw [h0] at hi
          simp at hi
        rcases hA with h0 | hAlast
        · exact hAne h0
        have hD : A.drop i ≠ [] := by
          intro h0
          have hl := congrArg List.length h0
          rw [List.length_drop, List.length_nil] at hl
          omega
        have hDlast : (A.drop i).getLast? = some '\n' := by
          have htd : A.take i ++ A.drop i = A := List.take_append_drop i A
          rw [← htd, List.getLast?_append] at hAlast
          cases hgl : (A.drop i).getLast? with
          | none => exact absurd (List.getLast?_eq_none_iff.mp hgl) hD
          | some x =>
            rw [hgl, Option.or_some] at hAlast
            exact hAlast
        rcases List.getLast?_eq_some_iff.mp hDlast with ⟨D', hD'⟩
        have hLc : ∃ lt, L = 'c' :: lt := by
          rcases List.isPrefixOf_iff_prefix.mp hL10 with ⟨t, ht⟩
          exact ⟨str "over_url:" ++ t, by rw [← ht]; rfl⟩
        obtain ⟨lt, hLlt⟩ := hLc
        have hdropfm : (A ++ L ++ B).drop i = A.drop i ++ (L ++ B) := by
          rw [List.append_assoc, List.drop_append_of_le_length (le_of_lt hi)]
        have heqq : D' ++ '\n' :: 'c' :: (lt ++ B) =
            coverKey ++ (w ++ '"' :: (q ++ '"' :: rest2)) := by
          rw [← hstruct, hdropfm, hD', hLlt]
          simp
        have hD'len : D'.length + 1 = A.length - i := by
          have hl := congrArg List.length hD'
          rw [List.length_drop, List.length_append, List.length_singleton] at hl
          omega
        exact quoted_no_nl_y hw hqprops (by decide) (by decide) heqq (by omega)
      · -- the match ends strictly inside A
        have hne2 : i + n ≠ A.length := by
          intro heqa
          rcases hA with h0 | hAlast
          · rw [h0] at heqa
            simp at heqa
            omega
          have h1 : A = (A ++ L ++ B).take (i + n) := by
            rw [heqa, List.append_assoc, List.take_left]
          rw [List.take_add, hstruct] at h1
          have hlenMT : (coverKey ++ (w ++ '"' :: (q ++ ['"']))).length = n := by
            rw [List.length_append, show coverKey.length = 10 from rfl]
            simp only [List.length_append, List.length_cons, List.length_singleton,
              List.length_nil]
            omega
          have hMT : (coverKey ++ (w ++ '"' :: (q ++ '"' :: rest2))).take n =
              coverKey ++ (w ++ '"' :: (q ++ ['"'])) := by
            rw [show coverKey ++ (w ++ '"' :: (q ++ '"' :: rest2)) =
                (coverKey ++ (w ++ '"' :: (q ++ ['"']))) ++ rest2 by simp,
              List.take_left' hlenMT]
          rw [hMT] at h1
          have hglA : A.getLast? = some '"' := by
            rw [h1, List.getLast?_append]
            rw [show coverKey ++ (w ++ '"' :: (q ++ ['"'])) =
                (coverKey ++ (w ++ '"' :: q)) ++ ['"'] by simp,
              List.getLast?_concat]
            rfl
          exact absurd (hAlast.symm.trans hglA) (by decide)
        have hlt : i + n < A.length := lt_of_le_of_ne hle hne2
        refine ⟨(A ++ L ++ B).take i ++
            substDollars repl (((A ++ L ++ B).drop i).take n) ((A ++ L ++ B).take i)
              ((A ++ L ++ B).drop (i + n)) ++ A.drop (i + n), B, ?_, ?_, hB⟩
        · rw [hstep]
          have hdr : (A ++ L ++ B).drop (i + n) = A.drop (i + n) ++ (L ++ B) := by
            rw [List.append_assoc, List.drop_append_of_le_length (le_of_lt hlt)]
          rw [hdr]
          simp [List.append_assoc]
        · right
          have hdne : A.drop (i + n) ≠ [] := by
            intro h0
            have hl := congrArg List.length h0
            rw [List.length_drop, List.length_nil] at hl
            omega
          have hAne : A ≠ [] := by
            intro h0
            rw [h0] at hlt
            simp at hlt
          rcases hA with h0 | hAlast
          · exact absurd h0 hAne
          have hdl : (A.drop (i + n)).getLast? = some '\n' := by
            have htd : A.take (i + n) ++ A.drop (i + n) = A :=
              List.take_append_drop (i + n) A
            rw [← htd, List.getLast?_append] at hAlast
            cases hgl : (A.drop (i + n)).getLast? with
            | none => exact absurd (List.getLast?_eq_none_iff.mp hgl) hdne
            | some x =>
              rw [hgl, Option.or_some] at hAlast
              exact hAlast
          rw [List.getLast?_append, hdl]
          rfl
    · rcases Nat.lt_or_ge i (A.length + L.length) with hiL | hiB
      · -- the match would start inside the cover line itself
        exfalso
        have hdropfm : (A ++ L ++ B).drop i = L.drop (i - A.length) ++ B := by
          rw [List.append_assoc, List.drop_append_eq_append_drop,
            List.drop_eq_nil_of_le hi, List.nil_append,
            List.drop_append_of_le_length (by omega)]
        by_cases hj : i = A.length
        · rw [hdropfm, hj, Nat.sub_self, List.drop_zero] at hq
          rw [quotedMatchLen_abs_value hL10 hval] at hq
          cases hq
        · have hj0 : 0 < i - A.length := by omega
          have hpref : coverKey.isPrefixOf (L.drop (i - A.length) ++ B) = true := by
            rw [← hdropfm, hstruct, List.isPrefixOf_iff_prefix]
            exact List.prefix_append _ _
          rcases hB with h0 | hBhead
          · rw [h0, List.append_nil, honce _ hj0] at hpref
            cases hpref
          · rcases List.head?_eq_some_iff.mp hBhead with ⟨B2, hB2⟩
            rw [hB2, isPrefixOf_append_cons_false _ _ _ _ (honce _ hj0)
              (by decide)] at hpref
            cases hpref
      · -- the match starts in B
        have hne2 : i ≠ A.length + L.length := by
          intro heqa
          have hdropB : (A ++ L ++ B).drop i = B := by
            rw [heqa]
            exact List.drop_left' (by simp)
          rw [hdropB] at hstruct
          rcases hB with h0 | hBhead
          · rw [h0] at hstruct
            have hl := congrArg List.length hstruct
            rw [List.length_nil, List.length_append,
              show coverKey.length = 10 from rfl] at hl
            omega
          · rw [hstruct, show coverKey = 'c' :: str "over_url:" from rfl,
              List.cons_append, List.head?_cons] at hBhead
            exact absurd hBhead (by decide)
        have hgt : A.length + L.length < i := lt_of_le_of_ne hiB (Ne.symm hne2)
        refine ⟨A, B.take (i - (A.length + L.length)) ++
            substDollars repl (((A ++ L ++ B).drop i).take n) ((A ++ L ++ B).take i)
              ((A ++ L ++ B).drop (i + n)) ++ (A ++ L ++ B).drop (i + n), ?_, hA, ?_⟩
        · rw [hstep]
          have htk : (A ++ L ++ B).take i =
              A ++ (L ++ B.take (i - (A.length + L.length))) := by
            rw [List.append_assoc, List.take_append_eq_append_take,
              List.take_of_length_le hi, List.take_append_eq_append_take,
              List.take_of_length_le (by omega)]
            have hidx : i - A.length - L.length = i - (A.length + L.length) := by
              omega
            rw [hidx]
          rw [htk]
          simp [List.append_assoc]
        · right
          have hBlen : i - (A.length + L.length) < B.length := by
            rw [List.length_append, List.length_append] at hifm
            omega
          have hBne : B ≠ [] := by
            intro h0
            rw [h0] at hBlen
            simp at hBlen
          rcases hB with h0 | hBhead
          · exact absurd h0 hBne
          rw [List.head?_append, List.head?_append, List.head?_take,
            if_neg (by omega), hBhead]
          rfl
/-- C2 (amended): if the front matter is `A ++ L ++ B` where `L` is a
`cover_url:` line (preceded by nothing or a newline, followed by nothing or
a newline) whose trimmed value starts with `/` or `http`, and `cover_url:`
does not occur a second time inside `L`, then the front-matter update
leaves the line `L` byte-identical, only possibly rewriting material
strictly before or strictly after it. -/
theorem C2_cover_url_no_rewrite_amended (pre A L B : List Char)
    (hA : A = [] ∨ A.getLast? = some '\n') (hB : B = [] ∨ B.head? = some '\n')
    (hL10 : coverKey.isPrefixOf L = true)
    (hval : (str "/").isPrefixOf (trimJS (L.drop 10)) = true ∨
      (str "http").isPrefixOf (trimJS (L.drop 10)) = true)
    (honce : containsSub coverKey (L.drop 1) = false) :
    ∃ A' B', updFM pre (A ++ L ++ B) = A' ++ L ++ B' ∧
      (A' = [] ∨ A'.getLast? = some '\n') ∧ (B' = [] ∨ B'.head? = some '\n') := by
  have honce' : ∀ j, 0 < j → coverKey.isPrefixOf (L.drop j) = false := by
    intro j hj
    have h := containsSub_false_drop honce (by decide) (j - 1)
    rw [List.drop_drop] at h
    have hidx : 1 + (j - 1) = j := by omega
    rw [hidx] at h
    exact h
  cases hfc : findCoverCap (A ++ L ++ B) with
  | none =>
    refine ⟨A, B ++ str "\ncover_url: ", ?_, hA, ?_⟩
    · rw [updFM, hfc]
      simp [List.append_assoc]
    · rcases hB with h0 | hBhead
      · right
        rw [h0, List.nil_append]
        rfl
      · right
        rw [List.head?_append, hBhead]
        rfl
  | some cap =>
    have hstep : updFM pre (A ++ L ++ B) = jsReplaceQuoted (A ++ L ++ B)
        (coverRepl (if (str "http").isPrefixOf (trimJS cap) ||
            (str "/").isPrefixOf (trimJS cap) then trimJS cap
          else pathJoin2 pre (stripWiki (trimJS cap)))) := by
      rw [updFM, hfc]
    rw [hstep]
    exact replaceQuoted_line _ A L B hA hB hL10 hval honce'

theorem C2_cover_url_no_rewrite_amended_witness :
    ∃ A' B', updFM (str "/work/proj/")
        (str "title: x\n" ++ str "cover_url: /img/a.png" ++ str "\ndate: y") =
      A' ++ str "cover_url: /img/a.png" ++ B' ∧
      (A' = [] ∨ A'.getLast? = some '\n') ∧ (B' = [] ∨ B'.head? = some '\n') :=
  C2_cover_url_no_rewrite_amended (str "/work/proj/") (str "title: x\n")
    (str "cover_url: /img/a.png") (str "\ndate: y")
    (Or.inr (by decide)) (Or.inr (by decide)) (by decide)
    (Or.inl (by decide)) (by decide)

end MDBlogger
